import Mathlib

/-!
Verification of the hoover audio pipeline core against its source.

The definitions below are shallow embeddings of the Rust code in `src/`:

* `src/audio/buffer.rs` — `AudioChunk::from_samples`, `ChunkAccumulator::{new, feed}`.
* `src/net/server.rs` — `UdpServer::{process_message, flush_audio_buffer}`.
* `src/output/markdown.rs` — `MarkdownWriter::deduplicate_overlap`.
* `src/net/protocol.rs` — `MessageType`, `encode_packet`, `decode_packet`,
  `PacketOrderer::{insert, drop_oldest}`.

Modelling conventions: Rust `f32` sample values are modelled as exact rationals
(`ℚ`); every counterexample below is evaluated at inputs where the `f32`
computation in the source is exact, so the discrepancies shown are discrepancies
of the source, not of the model.  Byte strings are `List ℕ` with values below
256, machine integers are `ℕ`/`ℤ`.  Wall-clock timestamps are omitted: no claim
under verification mentions them.
-/

namespace Hoover

/-- Truncation toward zero of a rational: the semantics of Rust's float-to-int
`as` cast (after clamping there is no saturation to consider). -/
def ratTrunc (x : ℚ) : ℤ := if 0 ≤ x then ⌊x⌋ else ⌈x⌉

/-- Rust `s.clamp(-1.0, 1.0)` on an exactly-represented value. -/
def clampUnit (x : ℚ) : ℚ := max (-1) (min 1 x)

/-- The `SAMPLE_RATE` constant of `src/audio/buffer.rs`. -/
def SAMPLE_RATE : ℕ := 16000

/-- The `AudioChunk` struct of `src/audio/buffer.rs` (timestamp omitted). -/
structure AudioChunk where
  samples_f32 : List ℚ
  samples_i16 : List ℤ
  duration_secs : ℚ
deriving DecidableEq

/-- `AudioChunk::from_samples`: `samples_f32` is the input verbatim, each
`samples_i16` entry is `(s.clamp(-1.0, 1.0) * 32767.0) as i16`, and the
duration is `len / 16000`.  The float multiplication is modelled exactly; the
`as i16` cast truncates toward zero. -/
def AudioChunk.from_samples (samples : List ℚ) : AudioChunk :=
  { samples_f32 := samples
    samples_i16 := samples.map (fun s => ratTrunc (clampUnit s * 32767))
    duration_secs := (samples.length : ℚ) / (SAMPLE_RATE : ℚ) }

/-- The `ChunkAccumulator` struct of `src/audio/buffer.rs` (timestamp state
omitted). -/
structure ChunkAccumulator where
  buffer : List ℚ
  chunk_samples : ℕ
  overlap_samples : ℕ
deriving DecidableEq

/-- `ChunkAccumulator::new`. -/
def ChunkAccumulator.new (chunk_duration_secs overlap_secs : ℕ) : ChunkAccumulator :=
  { buffer := []
    chunk_samples := chunk_duration_secs * SAMPLE_RATE
    overlap_samples := overlap_secs * SAMPLE_RATE }

/-- Outcome of the emit loop of `ChunkAccumulator::feed`: either the loop
exits normally with the emitted windows and the remaining buffer, or the
iteration panics (the `usize` subtraction `chunk_samples - overlap_samples`
underflows when `overlap_samples > chunk_samples`; in release builds the
wrapped drain count then makes `Vec::drain` panic instead). -/
inductive LoopResult (α : Type) where
  | ok (chunks : List (List α)) (buffer : List α)
  | panic
deriving DecidableEq

/-- Fuelled translation of the `while self.buffer.len() >= self.chunk_samples`
loop of `ChunkAccumulator::feed` (also the shape of the chunk-emitting loop of
`UdpServer::process_message`, which is the instance `c = 16000`, `v = 0`).
Each iteration emits the first `c` buffered samples and drains `c - v` from the
front.  `none` means the fuel ran out before the loop exited; the loop body
itself never stops when `c = v`, so `none` at every fuel witnesses divergence. -/
def emitLoop {α : Type} (c v : ℕ) : ℕ → List α → Option (LoopResult α)
  | 0, _ => none
  | fuel + 1, buf =>
    if c ≤ buf.length then
      if c < v then some .panic
      else
        match emitLoop c v fuel (buf.drop (c - v)) with
        | some (.ok chunks rest) => some (.ok (buf.take c :: chunks) rest)
        | some .panic => some .panic
        | none => none
    else some (.ok [] buf)

/-- `ChunkAccumulator::feed`: append the samples, run the emit loop (with
enough fuel for a terminating loop), wrap each emitted window via
`AudioChunk::from_samples`.  `none` reports a non-terminating or panicking
loop. -/
def ChunkAccumulator.feed (acc : ChunkAccumulator) (samples : List ℚ) :
    Option (List AudioChunk × ChunkAccumulator) :=
  match emitLoop acc.chunk_samples acc.overlap_samples ((acc.buffer ++ samples).length + 1)
      (acc.buffer ++ samples) with
  | some (.ok chunks rest) =>
      some (chunks.map AudioChunk.from_samples, { acc with buffer := rest })
  | _ => none

/-- A sequence of `feed` calls, concatenating the emitted chunks. -/
def ChunkAccumulator.runFeeds (acc : ChunkAccumulator) :
    List (List ℚ) → Option (List AudioChunk × ChunkAccumulator)
  | [] => some ([], acc)
  | s :: rest =>
    match acc.feed s with
    | some (chunks, acc') =>
      match acc'.runFeeds rest with
      | some (more, accF) => some (chunks ++ more, accF)
      | none => none
    | none => none

/-- Characterization of the emit loop when the drain amount `c - v` is
positive: it terminates (given fuel beyond the buffer length), every emitted
window is the `c`-sample slice of the buffer at stride `c - v`, the remaining
buffer is what lies beyond the emitted strides, and the number of windows is
`(len - v) / (c - v)` once the buffer holds a full chunk. -/
theorem emitLoop_spec {α : Type} {c v : ℕ} (hvc : v < c) :
    ∀ (fuel : ℕ) (buf : List α), buf.length < fuel →
    ∃ chunks rest, emitLoop c v fuel buf = some (.ok chunks rest) ∧
      rest.length < c ∧
      chunks.length = (if c ≤ buf.length then (buf.length - v) / (c - v) else 0) ∧
      rest = buf.drop (chunks.length * (c - v)) ∧
      (∀ i (hi : i < chunks.length), chunks[i] = (buf.drop (i * (c - v))).take c) ∧
      (∀ ch ∈ chunks, ch.length = c) ∧
      (∀ ch ∈ chunks, ∀ x ∈ ch, x ∈ buf) ∧
      List.Chain' (fun a b => a.drop (c - v) = b.take v) chunks ∧
      ∀ h : chunks ≠ [], v ≤ rest.length ∧ rest.take v = (chunks.getLast h).drop (c - v) := by
  intro fuel
  induction fuel with
  | zero => intro buf h; omega
  | succ n ih =>
    intro buf hlen
    by_cases hc : c ≤ buf.length
    · have hlen' : (buf.drop (c - v)).length < n := by
        rw [List.length_drop]; omega
      obtain ⟨chunks', rest', heq, hrest, hcount, hrestEq, helem, hlenEq, hmem, hchain, hlast⟩ :=
        ih (buf.drop (c - v)) hlen'
      refine ⟨buf.take c :: chunks', rest', ?_, hrest, ?_, ?_, ?_, ?_, ?_, ?_, ?_⟩
      · unfold emitLoop
        rw [if_pos hc, if_neg (by omega : ¬ c < v), heq]
      · rw [List.length_cons, hcount, List.length_drop]
        by_cases hc2 : c ≤ buf.length - (c - v)
        · rw [if_pos hc2, if_pos hc]
          have h1 : buf.length - v = (buf.length - (c - v) - v) + (c - v) := by omega
          rw [h1, Nat.add_div_right _ (by omega)]
        · rw [if_neg hc2, if_pos hc]
          have h2 : (buf.length - v) / (c - v) = 1 := by
            apply Nat.div_eq_of_lt_le <;> omega
          omega
      · rw [hrestEq, List.drop_drop, List.length_cons]
        congr 1; ring
      · intro i hi
        match i with
        | 0 => simp
        | Nat.succ j =>
          have hj : j < chunks'.length := by
            simpa using hi
          have h3 := helem j hj
          simp only [List.getElem_cons_succ]
          rw [h3, List.drop_drop]
          congr 2
          simp only [Nat.succ_eq_add_one]
          ring
      · intro ch hch
        rcases List.mem_cons.mp hch with hch | hch
        · subst hch; rw [List.length_take]; omega
        · exact hlenEq ch hch
      · intro ch hch x hx
        rcases List.mem_cons.mp hch with hch | hch
        · subst hch; exact List.take_subset _ _ hx
        · exact List.drop_subset _ _ (hmem ch hch x hx)
      · have hvv : c - (c - v) = v := by omega
        have hkey : (buf.take c).drop (c - v) = (buf.drop (c - v)).take v := by
          rw [List.drop_take, hvv]
        rw [List.chain'_cons']
        refine ⟨?_, hchain⟩
        intro y hy
        cases chunks' with
        | nil => simp at hy
        | cons a t =>
          have hy0 : a = y := by simpa using hy
          subst hy0
          have h0 := helem 0 (by simp)
          simp only [List.getElem_cons_zero, Nat.zero_mul, List.drop_zero] at h0
          rw [hkey, h0, List.take_take]
          congr 1
          omega
      · intro hne
        have hvv : c - (c - v) = v := by omega
        have hkey : (buf.take c).drop (c - v) = (buf.drop (c - v)).take v := by
          rw [List.drop_take, hvv]
        cases chunks' with
        | nil =>
          constructor
          · rw [hrestEq]; simp only [List.length_nil, Nat.zero_mul, List.drop_zero,
              List.length_drop]
            omega
          · rw [hrestEq]
            simp only [List.length_nil, Nat.zero_mul, List.drop_zero, List.getLast_singleton]
            exact hkey.symm
        | cons a t =>
          have hne' : a :: t ≠ [] := by simp
          obtain ⟨hv1, hv2⟩ := hlast hne'
          refine ⟨hv1, ?_⟩
          rw [hv2]
          congr 1
    · refine ⟨[], buf, ?_, by omega, by simp [hc], by simp, ?_, by simp, by simp,
        List.chain'_nil, ?_⟩
      · unfold emitLoop; rw [if_neg hc]
      · intro i hi; exact absurd hi (by simp)
      · intro h; exact absurd rfl h

/-- The emit loop's value does not depend on the fuel once the fuel exceeds
the buffer length (drain amount positive). -/
theorem emitLoop_fuel {α : Type} {c v : ℕ} (hvc : v < c) :
    ∀ (f1 f2 : ℕ) (buf : List α), buf.length < f1 → buf.length < f2 →
      emitLoop c v f1 buf = emitLoop c v f2 buf := by
  intro f1
  induction f1 with
  | zero => intro f2 buf h1 _; exact absurd h1 (Nat.not_lt_zero _)
  | succ n ih =>
    intro f2 buf h1 h2
    match f2, h2 with
    | m + 1, _ =>
      unfold emitLoop
      by_cases hc : c ≤ buf.length
      · rw [if_pos hc, if_pos hc, if_neg (by omega : ¬ c < v), if_neg (by omega : ¬ c < v)]
        have heq : emitLoop c v n (buf.drop (c - v)) = emitLoop c v m (buf.drop (c - v)) := by
          apply ih <;> (rw [List.length_drop]; omega)
        rw [heq]
      · rw [if_neg hc, if_neg hc]

/-- Feeding `buf` and then continuing from its remainder with `s` emits the
same windows as feeding `buf ++ s` at once: the emit loop drains greedily. -/
theorem emitLoop_append {α : Type} {c v : ℕ} (hvc : v < c) :
    ∀ (n : ℕ) (buf s : List α), buf.length ≤ n →
    ∀ {ch ch' : List (List α)} {r r' : List α},
      emitLoop c v (buf.length + 1) buf = some (.ok ch r) →
      emitLoop c v ((r ++ s).length + 1) (r ++ s) = some (.ok ch' r') →
      emitLoop c v ((buf ++ s).length + 1) (buf ++ s) = some (.ok (ch ++ ch') r') := by
  intro n
  induction n with
  | zero =>
    intro buf s hn ch ch' r r' h1 h2
    have hbuf : buf = [] := List.eq_nil_of_length_eq_zero (by omega)
    subst hbuf
    unfold emitLoop at h1
    rw [if_neg (by simp; omega)] at h1
    simp only [Option.some.injEq, LoopResult.ok.injEq] at h1
    obtain ⟨hch, hr⟩ := h1
    subst hch; subst hr
    simpa using h2
  | succ n ih =>
    intro buf s hn ch ch' r r' h1 h2
    by_cases hc : c ≤ buf.length
    · unfold emitLoop at h1
      rw [if_pos hc, if_neg (by omega : ¬ c < v)] at h1
      rcases hInner : emitLoop c v buf.length (buf.drop (c - v)) with _ | res
      · rw [hInner] at h1; exact absurd h1 (by simp)
      · rcases res with ⟨ch₀, r₀⟩ | _
        · rw [hInner] at h1
          simp only [Option.some.injEq, LoopResult.ok.injEq] at h1
          obtain ⟨hch, hr⟩ := h1
          have hlt : (buf.drop (c - v)).length < buf.length := by
            rw [List.length_drop]; omega
          have hInner' :
              emitLoop c v ((buf.drop (c - v)).length + 1) (buf.drop (c - v)) =
                some (.ok ch₀ r₀) := by
            rw [emitLoop_fuel hvc ((buf.drop (c - v)).length + 1) buf.length _ (by omega)
              (by omega), hInner]
          have hr₀ : r₀ = r := hr
          subst hr₀
          have hrec := ih (buf.drop (c - v)) s (by rw [List.length_drop]; omega) hInner' h2
          unfold emitLoop
          rw [if_pos (by rw [List.length_append]; omega), if_neg (by omega : ¬ c < v)]
          have hdrop : (buf ++ s).drop (c - v) = buf.drop (c - v) ++ s :=
            List.drop_append_of_le_length (by omega)
          have htake : (buf ++ s).take c = buf.take c :=
            List.take_append_of_le_length hc
          have hfuel :
              emitLoop c v ((buf ++ s).length) ((buf ++ s).drop (c - v)) =
                some (.ok (ch₀ ++ ch') r') := by
            rw [hdrop]
            rw [emitLoop_fuel hvc ((buf ++ s).length) ((buf.drop (c - v) ++ s).length + 1)
              _ (by simp [List.length_append]; omega) (by omega), hrec]
          rw [hfuel, htake, ← hch]
          simp
        · rw [hInner] at h1; exact absurd h1 (by simp)
    · unfold emitLoop at h1
      rw [if_neg hc] at h1
      simp only [Option.some.injEq, LoopResult.ok.injEq] at h1
      obtain ⟨hch, hr⟩ := h1
      subst hch; subst hr
      simpa using h2

/-- When the overlap equals the chunk size the drain amount is zero, the
buffer never shrinks, and the emit loop of `feed` never exits: no fuel
completes it. -/
theorem emitLoop_none_of_overlap_eq {α : Type} (c : ℕ) (buf : List α) (hc : c ≤ buf.length) :
    ∀ fuel, emitLoop c c fuel buf = none := by
  intro fuel
  induction fuel with
  | zero => rfl
  | succ n ih =>
    unfold emitLoop
    rw [if_pos hc, if_neg (lt_irrefl c)]
    simp only [Nat.sub_self, List.drop_zero, ih]

/-- When the overlap exceeds the chunk size, the `usize` drain-amount
subtraction underflows (panic) as soon as a full chunk is buffered. -/
theorem emitLoop_panic_of_overlap_gt {α : Type} {c v : ℕ} (hcv : c < v) (buf : List α)
    (hc : c ≤ buf.length) (fuel : ℕ) (hf : 0 < fuel) :
    emitLoop c v fuel buf = some .panic := by
  match fuel, hf with
  | n + 1, _ =>
    unfold emitLoop
    rw [if_pos hc, if_pos hcv]

/-- Under `overlap < chunk`, `feed` always succeeds, its windows are those of
the emit loop on the whole appended buffer, and the remaining buffer holds
less than one chunk. -/
theorem feed_spec (acc : ChunkAccumulator) (hvc : acc.overlap_samples < acc.chunk_samples)
    (samples : List ℚ) :
    ∃ chunks rest,
      emitLoop acc.chunk_samples acc.overlap_samples ((acc.buffer ++ samples).length + 1)
        (acc.buffer ++ samples) = some (.ok chunks rest) ∧
      acc.feed samples =
        some (chunks.map AudioChunk.from_samples, { acc with buffer := rest }) ∧
      rest.length < acc.chunk_samples := by
  obtain ⟨chunks, rest, heq, hlen, -⟩ :=
    emitLoop_spec hvc ((acc.buffer ++ samples).length + 1) (acc.buffer ++ samples) (by omega)
  refine ⟨chunks, rest, heq, ?_, hlen⟩
  unfold ChunkAccumulator.feed
  rw [heq]

/-- Greedy draining makes a sequence of feeds equivalent to a single feed of
the concatenation, whenever the starting buffer holds less than one chunk (as
it does for a fresh accumulator and after every feed). -/
theorem runFeeds_eq_feed_join (acc : ChunkAccumulator)
    (hvc : acc.overlap_samples < acc.chunk_samples)
    (hbuf : acc.buffer.length < acc.chunk_samples) (feeds : List (List ℚ)) :
    acc.runFeeds feeds = acc.feed feeds.flatten := by
  induction feeds generalizing acc with
  | nil =>
    show some ([], acc) = acc.feed [].flatten
    unfold ChunkAccumulator.feed
    have h1 : emitLoop acc.chunk_samples acc.overlap_samples
        ((acc.buffer ++ List.flatten []).length + 1) (acc.buffer ++ List.flatten []) =
        some (.ok [] (acc.buffer ++ List.flatten [])) := by
      unfold emitLoop
      rw [if_neg (by simp; omega)]
    rw [h1]
    simp
  | cons s rest ih =>
    obtain ⟨ch1, r1, hloop1, hfeed1, hr1len⟩ := feed_spec acc hvc s
    have ih1 := ih { acc with buffer := r1 } hvc hr1len
    obtain ⟨ch2, r2, hloop2, hfeed2, hr2len⟩ := feed_spec { acc with buffer := r1 } hvc rest.flatten
    have hbig := emitLoop_append hvc (acc.buffer ++ s).length (acc.buffer ++ s) rest.flatten
      le_rfl hloop1 hloop2
    have hfeedBig : acc.feed (s :: rest).flatten =
        some ((ch1 ++ ch2).map AudioChunk.from_samples, { acc with buffer := r2 }) := by
      unfold ChunkAccumulator.feed
      have hassoc : acc.buffer ++ (s :: rest).flatten = (acc.buffer ++ s) ++ rest.flatten := by
        simp [List.flatten_cons, List.append_assoc]
      rw [hassoc, hbig]
    have hLHS : acc.runFeeds (s :: rest) =
        some (ch1.map AudioChunk.from_samples ++ ch2.map AudioChunk.from_samples,
          { acc with buffer := r2 }) := by
      unfold ChunkAccumulator.runFeeds
      rw [hfeed1]
      dsimp only
      rw [ih1, hfeed2]
    rw [hLHS, hfeedBig, List.map_append]

/-- C1: for a `ChunkAccumulator` constructed with `overlap_secs <
chunk_duration_secs` and any sequence of feeds totaling `N` samples, the
number of emitted chunks is `(N - overlap_samples) / (chunk_samples -
overlap_samples)` when `N ≥ chunk_samples` and `0` otherwise, and every
emitted chunk's `samples_f32` has length exactly `chunk_samples`. -/
theorem chunk_count_spec (chunk_duration_secs overlap_secs : ℕ)
    (h : overlap_secs < chunk_duration_secs) (feeds : List (List ℚ)) :
    ∃ chunks accF,
      (ChunkAccumulator.new chunk_duration_secs overlap_secs).runFeeds feeds =
        some (chunks, accF) ∧
      (∀ ch ∈ chunks, ch.samples_f32.length = chunk_duration_secs * SAMPLE_RATE) ∧
      chunks.length =
        (if chunk_duration_secs * SAMPLE_RATE ≤ (feeds.map List.length).sum then
          ((feeds.map List.length).sum - overlap_secs * SAMPLE_RATE) /
            (chunk_duration_secs * SAMPLE_RATE - overlap_secs * SAMPLE_RATE)
        else 0) := by
  have hvc : (ChunkAccumulator.new chunk_duration_secs overlap_secs).overlap_samples <
      (ChunkAccumulator.new chunk_duration_secs overlap_secs).chunk_samples := by
    simp only [ChunkAccumulator.new, SAMPLE_RATE]
    omega
  obtain ⟨ch0, rest, hloop, hrlen, hcount, -, -, hlenEq, -, -, -⟩ :=
    emitLoop_spec hvc
      (((ChunkAccumulator.new chunk_duration_secs overlap_secs).buffer ++
        feeds.flatten).length + 1)
      ((ChunkAccumulator.new chunk_duration_secs overlap_secs).buffer ++ feeds.flatten)
      (by omega)
  have hfeed : (ChunkAccumulator.new chunk_duration_secs overlap_secs).feed feeds.flatten =
      some (ch0.map AudioChunk.from_samples,
        { ChunkAccumulator.new chunk_duration_secs overlap_secs with buffer := rest }) := by
    unfold ChunkAccumulator.feed
    rw [hloop]
  rw [runFeeds_eq_feed_join _ hvc (by simp [ChunkAccumulator.new, SAMPLE_RATE]; omega) feeds,
    hfeed]
  refine ⟨_, _, rfl, ?_, ?_⟩
  · intro ch hch
    obtain ⟨w, hw, rfl⟩ := List.mem_map.mp hch
    exact hlenEq w hw
  · rw [List.length_map, hcount]
    simp [ChunkAccumulator.new, List.length_flatten]

/-- C9: with `overlap_samples < chunk_samples`, across any sequence of feeds
the last `overlap_samples` entries of each emitted chunk's `samples_f32`
equal, bit for bit, the first `overlap_samples` entries of the next emitted
chunk's `samples_f32`. -/
theorem chunk_overlap_spec (c v : ℕ) (hvc : v < c) (feeds : List (List ℚ)) :
    ∃ chunks accF, (ChunkAccumulator.mk [] c v).runFeeds feeds = some (chunks, accF) ∧
      (∀ ch ∈ chunks, ch.samples_f32.length = c) ∧
      ∀ i (hi : i + 1 < chunks.length),
        chunks[i].samples_f32.drop (chunks[i].samples_f32.length - v) =
          chunks[i+1].samples_f32.take v := by
  obtain ⟨ch0, rest, hloop, hrlen, -, -, -, hlenEq, -, hchain, -⟩ :=
    emitLoop_spec hvc (((ChunkAccumulator.mk [] c v).buffer ++ feeds.flatten).length + 1)
      ((ChunkAccumulator.mk [] c v).buffer ++ feeds.flatten) (by omega)
  have hfeed : (ChunkAccumulator.mk [] c v).feed feeds.flatten =
      some (ch0.map AudioChunk.from_samples, { ChunkAccumulator.mk [] c v with buffer := rest }) := by
    unfold ChunkAccumulator.feed
    rw [hloop]
  rw [runFeeds_eq_feed_join _ hvc (by simpa using Nat.lt_of_lt_of_le (Nat.zero_lt_of_lt hvc) le_rfl) feeds, hfeed]
  refine ⟨_, _, rfl, ?_, ?_⟩
  · intro ch hch
    obtain ⟨w, hw, rfl⟩ := List.mem_map.mp hch
    exact hlenEq w hw
  · intro i hi
    have hi' : i < ch0.length - 1 := by
      have := hi
      rw [List.length_map] at this
      omega
    have hrel := List.chain'_iff_get.mp hchain i hi'
    have hii : i < ch0.length := by omega
    have hii1 : i + 1 < ch0.length := by omega
    have e1 : (ch0.map AudioChunk.from_samples)[i] = AudioChunk.from_samples ch0[i] := by
      simp
    have e2 : (ch0.map AudioChunk.from_samples)[i+1] = AudioChunk.from_samples ch0[i+1] := by
      simp
    rw [e1, e2]
    show ch0[i].drop ((ch0[i] : List ℚ).length - v) = ch0[i+1].take v
    have hl : (ch0[i] : List ℚ).length = c := hlenEq _ (ch0.getElem_mem hii)
    rw [hl]
    simpa [List.get_eq_getElem] using hrel

/-- C10: `feed` terminates with a buffer strictly below `chunk_samples` on
every input precisely when `overlap_samples < chunk_samples`; and when
`overlap_secs = chunk_duration_secs` (drain amount zero) the emit loop never
exits once the buffer holds a full chunk: no fuel completes it. -/
theorem feed_termination_iff (chunk_duration_secs overlap_secs : ℕ) :
    ((∀ acc : ChunkAccumulator,
        acc.chunk_samples = chunk_duration_secs * SAMPLE_RATE →
        acc.overlap_samples = overlap_secs * SAMPLE_RATE →
        ∀ samples, ∃ chunks acc', acc.feed samples = some (chunks, acc') ∧
          acc'.buffer.length < acc.chunk_samples) ↔
      overlap_secs < chunk_duration_secs) ∧
    (overlap_secs = chunk_duration_secs →
      ∀ buf : List ℚ, chunk_duration_secs * SAMPLE_RATE ≤ buf.length →
      ∀ fuel,
        emitLoop (chunk_duration_secs * SAMPLE_RATE) (overlap_secs * SAMPLE_RATE) fuel buf =
          none) := by
  constructor
  · constructor
    · intro hall
      by_contra hge
      push_neg at hge
      obtain ⟨chunks, acc', hfeed, -⟩ :=
        hall ⟨List.replicate (chunk_duration_secs * SAMPLE_RATE) 0,
          chunk_duration_secs * SAMPLE_RATE, overlap_secs * SAMPLE_RATE⟩ rfl rfl []
      have hlen : ((List.replicate (chunk_duration_secs * SAMPLE_RATE) (0 : ℚ)) ++
          ([] : List ℚ)).length = chunk_duration_secs * SAMPLE_RATE := by simp
      rcases Nat.lt_or_ge (chunk_duration_secs * SAMPLE_RATE) (overlap_secs * SAMPLE_RATE)
        with hlt | hge2
      · have hnone : (ChunkAccumulator.mk
            (List.replicate (chunk_duration_secs * SAMPLE_RATE) 0)
            (chunk_duration_secs * SAMPLE_RATE) (overlap_secs * SAMPLE_RATE)).feed [] = none := by
          unfold ChunkAccumulator.feed
          rw [emitLoop_panic_of_overlap_gt hlt _ (by rw [hlen]) _ (by omega)]
        rw [hnone] at hfeed
        exact Option.noConfusion hfeed
      · have heqv : overlap_secs * SAMPLE_RATE = chunk_duration_secs * SAMPLE_RATE := by
          simp only [SAMPLE_RATE] at hge2 ⊢
          omega
        have hnone : (ChunkAccumulator.mk
            (List.replicate (chunk_duration_secs * SAMPLE_RATE) 0)
            (chunk_duration_secs * SAMPLE_RATE) (overlap_secs * SAMPLE_RATE)).feed [] = none := by
          unfold ChunkAccumulator.feed
          rw [heqv, emitLoop_none_of_overlap_eq _ _ (by rw [hlen])]
        rw [hnone] at hfeed
        exact Option.noConfusion hfeed
    · intro h acc hcs hos samples
      have hvc : acc.overlap_samples < acc.chunk_samples := by
        rw [hcs, hos]
        simp only [SAMPLE_RATE]
        omega
      obtain ⟨ch, r, -, hfeed, hlen⟩ := feed_spec acc hvc samples
      exact ⟨_, _, hfeed, hlen⟩
  · intro heq buf hlen fuel
    have h2 : overlap_secs * SAMPLE_RATE = chunk_duration_secs * SAMPLE_RATE := by rw [heq]
    rw [h2]
    exact emitLoop_none_of_overlap_eq _ buf hlen fuel

/-- C7 as stated is false: the cast `(clamped * f32::from(i16::MAX)) as i16`
in `AudioChunk::from_samples` truncates toward zero, it does not round to
nearest.  At `s = 1/2` the `f32` product `0.5 * 32767.0` is exactly `16383.5`
(both factors and the product are representable), the source casts it to
`16383`, while rounding to nearest gives `16384`. -/
theorem from_samples_round_counterexample :
    (AudioChunk.from_samples [(1 : ℚ)/2]).samples_i16 = [16383] ∧
      round (clampUnit ((1 : ℚ)/2) * 32767) = 16384 ∧
      (AudioChunk.from_samples [(1 : ℚ)/2]).samples_i16 ≠
        [round (clampUnit ((1 : ℚ)/2) * 32767)] := by
  have h1 : clampUnit ((1 : ℚ)/2) = 1/2 := by
    unfold clampUnit
    norm_num
  have h2 : (AudioChunk.from_samples [(1 : ℚ)/2]).samples_i16 =
      [ratTrunc (clampUnit ((1 : ℚ)/2) * 32767)] := rfl
  have h3 : ratTrunc (clampUnit ((1 : ℚ)/2) * 32767) = 16383 := by
    rw [h1]
    unfold ratTrunc
    rw [if_pos (by norm_num)]
    norm_num
  have h4 : round ((1 : ℚ)/2 * 32767) = 16384 := by
    rw [round_eq]
    norm_num
  refine ⟨by rw [h2, h3], by rw [h1, h4], ?_⟩
  rw [h2, h3, h1, h4]
  decide


/-- C7 amended: each `samples_i16` entry equals the clamped sample scaled by
32767 and truncated toward zero (the semantics of the `as i16` cast). -/
theorem from_samples_i16_trunc (samples : List ℚ) (i : ℕ) (hi : i < samples.length) :
    (AudioChunk.from_samples samples).samples_i16[i]? =
      some (ratTrunc (clampUnit samples[i] * 32767)) := by
  simp [AudioChunk.from_samples, List.getElem?_eq_getElem hi]

theorem from_samples_i16_trunc_witness :
    0 < ([(1 : ℚ)/2] : List ℚ).length ∧
      (AudioChunk.from_samples [(1 : ℚ)/2]).samples_i16[0]? = some 16383 := by
  refine ⟨by norm_num, ?_⟩
  have h := from_samples_i16_trunc [(1 : ℚ)/2] 0 (by norm_num)
  rw [h]
  have h1 : clampUnit ((1 : ℚ)/2) = 1/2 := by unfold clampUnit; norm_num
  simp only [List.getElem_cons_zero, h1]
  unfold ratTrunc
  rw [if_pos (by norm_num)]
  norm_num

/-- Little-endian signed 16-bit decode of a byte pair (`i16::from_le_bytes`
in `UdpServer::process_message`). -/
def i16_from_le (b0 b1 : ℕ) : ℤ :=
  if b0 + 256 * b1 < 32768 then (b0 + 256 * b1 : ℤ) else (b0 + 256 * b1 : ℤ) - 65536

/-- The `chunks_exact(2)` sample decode of `process_message`: a trailing odd
byte is dropped. -/
def bytesToSamples : List ℕ → List ℤ
  | b0 :: b1 :: rest => i16_from_le b0 b1 :: bytesToSamples rest
  | _ => []

/-- An `AudioChunk` as assembled by the UDP receiver: `samples_f32` is
`f32::from(s) / f32::from(i16::MAX)` per sample (exact-rational model). -/
def udpChunk (chunk_i16 : List ℤ) (dur : ℚ) : AudioChunk :=
  { samples_f32 := chunk_i16.map (fun s : ℤ => (s : ℚ) / 32767)
    samples_i16 := chunk_i16
    duration_secs := dur }

/-- `UdpServer::process_message` on an `AudioData` body: decode bytes as
little-endian i16, append to the carryover buffer, emit one 1-second chunk
per 16000 buffered samples (the emit loop with `c = 16000`, `v = 0`). -/
def process_message (audio_buffer : List ℤ) (data : List ℕ) :
    Option (List AudioChunk × List ℤ) :=
  match emitLoop SAMPLE_RATE 0 ((audio_buffer ++ bytesToSamples data).length + 1)
      (audio_buffer ++ bytesToSamples data) with
  | some (.ok chunks rest) => some (chunks.map (fun ch => udpChunk ch 1), rest)
  | _ => none

/-- `UdpServer::flush_audio_buffer`: drain the whole carryover as one chunk
with duration `len / 16000`. -/
def flush_audio_buffer (audio_buffer : List ℤ) : Option AudioChunk :=
  if audio_buffer.isEmpty then none
  else some (udpChunk audio_buffer ((audio_buffer.length : ℚ) / 16000))

/-- Byte pairs decode to the i16 range. -/
theorem bytesToSamples_range : ∀ (data : List ℕ), (∀ b ∈ data, b < 256) →
    ∀ s ∈ bytesToSamples data, -32768 ≤ s ∧ s ≤ 32767
  | [], _, s, hs => by simp [bytesToSamples] at hs
  | [b], _, s, hs => by simp [bytesToSamples] at hs
  | b0 :: b1 :: rest, h, s, hs => by
    simp only [bytesToSamples, List.mem_cons] at hs
    rcases hs with rfl | hs
    · have h0 : b0 < 256 := h b0 (by simp)
      have h1 : b1 < 256 := h b1 (by simp)
      unfold i16_from_le
      split <;> omega
    · exact bytesToSamples_range rest (fun b hb => h b (by simp [hb])) s hs

/-- Dividing an i16-range integer by 32767 lands in `[-32768/32767, 1]`. -/
theorem i16_div_range (s : ℤ) (h1 : -32768 ≤ s) (h2 : s ≤ 32767) :
    -(32768 : ℚ)/32767 ≤ (s : ℚ)/32767 ∧ (s : ℚ)/32767 ≤ 1 := by
  constructor
  · rw [div_le_div_iff_of_pos_right (by norm_num : (0 : ℚ) < 32767)]
    exact_mod_cast h1
  · rw [div_le_one (by norm_num : (0 : ℚ) < 32767)]
    exact_mod_cast h2

/-- C8 as stated is false: the UDP receiver maps the sample `i16::MIN =
-32768` (wire bytes `0x00 0x80`) to `-32768/32767 < -1`, so a flushed chunk
carries a `samples_f32` value outside `[-1, 1]`. -/
theorem udp_chunk_unit_range_counterexample :
    flush_audio_buffer (bytesToSamples [0, 128]) =
      some (udpChunk [-32768] (1/16000)) ∧
      (udpChunk [-32768] (1/16000)).samples_f32 = [-(32768 : ℚ)/32767] ∧
      ¬ (-1 ≤ -(32768 : ℚ)/32767) := by
  have hb : bytesToSamples [0, 128] = [-32768] := by
    show i16_from_le 0 128 :: bytesToSamples [] = [-32768]
    unfold i16_from_le bytesToSamples
    norm_num
  refine ⟨?_, ?_, by norm_num⟩
  · rw [hb]
    unfold flush_audio_buffer
    norm_num [udpChunk]
  · simp [udpChunk, neg_div]

/-- C8 amended: every chunk assembled by the UDP receiver (whether by
`process_message` or `flush_audio_buffer` from in-range i16 samples) has
`samples_i16` and `samples_f32` of equal length and all `samples_f32` values
in `[-32768/32767, 1]`; chunks built by `AudioChunk::from_samples` have equal
lengths and carry the fed samples verbatim (hence lie in `[-1, 1]` exactly
when the fed samples do). -/
theorem audio_chunk_range_amended :
    (∀ (audio_buffer : List ℤ) (data : List ℕ),
      (∀ s ∈ audio_buffer, -32768 ≤ s ∧ s ≤ 32767) → (∀ b ∈ data, b < 256) →
      ∃ chunks rest, process_message audio_buffer data = some (chunks, rest) ∧
        ∀ ch ∈ chunks, ch.samples_i16.length = ch.samples_f32.length ∧
          ∀ x ∈ ch.samples_f32, -(32768 : ℚ)/32767 ≤ x ∧ x ≤ 1) ∧
    (∀ (audio_buffer : List ℤ) (ch : AudioChunk),
      (∀ s ∈ audio_buffer, -32768 ≤ s ∧ s ≤ 32767) →
      flush_audio_buffer audio_buffer = some ch →
        ch.samples_i16.length = ch.samples_f32.length ∧
        ∀ x ∈ ch.samples_f32, -(32768 : ℚ)/32767 ≤ x ∧ x ≤ 1) ∧
    (∀ samples : List ℚ,
      (AudioChunk.from_samples samples).samples_i16.length =
        (AudioChunk.from_samples samples).samples_f32.length ∧
      (AudioChunk.from_samples samples).samples_f32 = samples) := by
  refine ⟨?_, ?_, ?_⟩
  · intro audio_buffer data hbuf hdata
    have hvc : (0 : ℕ) < SAMPLE_RATE := by norm_num [SAMPLE_RATE]
    obtain ⟨ch0, rest, hloop, -, -, -, -, -, hmem, -, -⟩ :=
      emitLoop_spec hvc ((audio_buffer ++ bytesToSamples data).length + 1)
        (audio_buffer ++ bytesToSamples data) (by omega)
    refine ⟨ch0.map (fun ch => udpChunk ch 1), rest, ?_, ?_⟩
    · unfold process_message
      rw [hloop]
    · intro ch hch
      obtain ⟨w, hw, rfl⟩ := List.mem_map.mp hch
      constructor
      · simp only [udpChunk, List.length_map]
      · intro x hx
        simp only [udpChunk] at hx
        obtain ⟨s, hs, rfl⟩ := List.mem_map.mp hx
        have hsrange : -32768 ≤ s ∧ s ≤ 32767 := by
          rcases List.mem_append.mp (hmem w hw s hs) with h | h
          · exact hbuf s h
          · exact bytesToSamples_range data hdata s h
        exact i16_div_range s hsrange.1 hsrange.2
  · intro audio_buffer ch hbuf hflush
    unfold flush_audio_buffer at hflush
    split at hflush
    · exact Option.noConfusion hflush
    · have hch : ch = udpChunk audio_buffer ((audio_buffer.length : ℚ) / 16000) :=
        (Option.some.inj hflush).symm
      subst hch
      constructor
      · simp only [udpChunk, List.length_map]
      · intro x hx
        simp only [udpChunk] at hx
        obtain ⟨s, hs, rfl⟩ := List.mem_map.mp hx
        exact i16_div_range s (hbuf s hs).1 (hbuf s hs).2
  · intro samples
    constructor
    · simp [AudioChunk.from_samples]
    · rfl

theorem audio_chunk_range_amended_witness :
    ∃ chunks rest, process_message [] [] = some (chunks, rest) ∧
      ∀ ch ∈ chunks, ch.samples_i16.length = ch.samples_f32.length ∧
        ∀ x ∈ ch.samples_f32, -(32768 : ℚ)/32767 ≤ x ∧ x ≤ 1 :=
  audio_chunk_range_amended.1 [] [] (by simp) (by simp)

/-- Splitting a character list at every whitespace character, keeping empty
fragments (the first stage of Rust's `split_whitespace`).  Rust text is
modelled as `List Char`; Lean's `String` functions are avoided because their
byte-position internals do not reduce in the kernel. -/
def splitAtWs : List Char → List (List Char)
  | [] => [[]]
  | c :: rest =>
    if c.isWhitespace then [] :: splitAtWs rest
    else
      match splitAtWs rest with
      | w :: ws => (c :: w) :: ws
      | [] => [[c]]

/-- Rust `str::split_whitespace`: split at whitespace and drop the empty
fragments. -/
def splitWhitespace (cs : List Char) : List (List Char) :=
  (splitAtWs cs).filter (fun w => !w.isEmpty)

/-- Rust `str::to_lowercase` on a word (`Char.toLower` per character;
identical to Rust on ASCII, which is all the stored trailing words need). -/
def lowerWord (w : List Char) : List Char := w.map Char.toLower

/-- The `for overlap_len in 1..=max_overlap { .. }` loop of
`MarkdownWriter::deduplicate_overlap`: `best_overlap` ends as the last — and
hence largest — overlap length whose comparison matched. -/
def bestOverlapLoop (trailing new_words : List (List Char)) (max_overlap : ℕ) : ℕ :=
  (List.range' 1 max_overlap).foldl
    (fun best overlap_len =>
      if trailing.drop (trailing.length - overlap_len) =
          (new_words.take overlap_len).map lowerWord
      then overlap_len else best) 0

/-- `MarkdownWriter::deduplicate_overlap` of `src/output/markdown.rs`:
`last_trailing_words` is the stored lowercased trailing-word state, `text`
the new segment text. -/
def deduplicate_overlap (last_trailing_words : List (List Char)) (text : List Char) :
    List Char :=
  if last_trailing_words.isEmpty then text
  else
    let new_words := splitWhitespace text
    if new_words.isEmpty then []
    else
      let max_overlap := min last_trailing_words.length new_words.length
      let best_overlap := bestOverlapLoop last_trailing_words new_words max_overlap
      if 0 < best_overlap then List.intercalate [' '] (new_words.drop best_overlap)
      else text

/-- The comparison of one loop iteration: the last `k` stored trailing words
equal the lowercased first `k` new words. -/
def overlapMatch (trailing new_words : List (List Char)) (k : ℕ) : Prop :=
  trailing.drop (trailing.length - k) = (new_words.take k).map lowerWord

instance (trailing new_words : List (List Char)) (k : ℕ) :
    Decidable (overlapMatch trailing new_words k) := by
  unfold overlapMatch; infer_instance

/-- The loop computes the greatest matching overlap length (or 0). -/
theorem bestOverlapLoop_eq_findGreatest (trailing new_words : List (List Char)) :
    ∀ max_overlap, bestOverlapLoop trailing new_words max_overlap =
      Nat.findGreatest (overlapMatch trailing new_words) max_overlap := by
  intro max_overlap
  induction max_overlap with
  | zero => rfl
  | succ n ih =>
    unfold bestOverlapLoop at ih ⊢
    rw [List.range'_1_concat, List.foldl_append, ih, Nat.findGreatest_succ]
    simp only [List.foldl_cons, List.foldl_nil, Nat.add_comm 1 n]
    exact if_congr Iff.rfl rfl rfl

/-- C6: with `T` the stored trailing words and `N` the whitespace-split words
of `text`, `deduplicate_overlap` returns `text` when `T` is empty; the empty
string when `T` is nonempty but `N` is empty; `N[k..]` joined by single
spaces for the largest `k ∈ [1, min(|T|,|N|)]` whose suffix/prefix comparison
matches; and `text` unchanged when no `k` matches.  The spec's concrete
example is included. -/
theorem deduplicate_overlap_spec :
    (∀ text, deduplicate_overlap [] text = text) ∧
    (∀ trailing text, trailing ≠ [] → splitWhitespace text = [] →
      deduplicate_overlap trailing text = []) ∧
    (∀ trailing text k, trailing ≠ [] →
      1 ≤ k → k ≤ min trailing.length (splitWhitespace text).length →
      overlapMatch trailing (splitWhitespace text) k →
      (∀ j, k < j → j ≤ min trailing.length (splitWhitespace text).length →
        ¬ overlapMatch trailing (splitWhitespace text) j) →
      deduplicate_overlap trailing text =
        List.intercalate [' '] ((splitWhitespace text).drop k)) ∧
    (∀ trailing text, trailing ≠ [] → splitWhitespace text ≠ [] →
      (∀ j, 1 ≤ j → j ≤ min trailing.length (splitWhitespace text).length →
        ¬ overlapMatch trailing (splitWhitespace text) j) →
      deduplicate_overlap trailing text = text) ∧
    deduplicate_overlap
      ["the".data, "quick".data, "brown".data, "fox".data] "brown fox jumps over".data =
      "jumps over".data := by
  refine ⟨?_, ?_, ?_, ?_, ?_⟩
  · intro text
    simp [deduplicate_overlap]
  · intro trailing text hne hsplit
    simp only [deduplicate_overlap]
    rw [if_neg (by simpa using hne), hsplit]
    simp
  · intro trailing text k hne h1 h2 hm hmax
    have hN : splitWhitespace text ≠ [] := by
      intro h
      rw [h] at h2
      simp at h2
      omega
    simp only [deduplicate_overlap]
    rw [if_neg (by simpa using hne), if_neg (by simpa using hN)]
    have hbest : bestOverlapLoop trailing (splitWhitespace text)
        (min trailing.length (splitWhitespace text).length) = k := by
      rw [bestOverlapLoop_eq_findGreatest, Nat.findGreatest_eq_iff]
      exact ⟨h2, fun _ => hm, hmax⟩
    rw [hbest, if_pos (by omega)]
  · intro trailing text hne hN hnone
    simp only [deduplicate_overlap]
    rw [if_neg (by simpa using hne), if_neg (by simpa using hN)]
    have hbest : bestOverlapLoop trailing (splitWhitespace text)
        (min trailing.length (splitWhitespace text).length) = 0 := by
      rw [bestOverlapLoop_eq_findGreatest, Nat.findGreatest_eq_zero_iff]
      intro n hn1 hn2
      exact hnone n hn1 hn2
    rw [hbest]
    simp
  · decide

theorem deduplicate_overlap_spec_witness :
    (["the".data, "quick".data, "brown".data, "fox".data] : List (List Char)) ≠ [] ∧
      deduplicate_overlap
        ["the".data, "quick".data, "brown".data, "fox".data] "brown fox jumps over".data =
        List.intercalate [' '] ((splitWhitespace "brown fox jumps over".data).drop 2) := by
  refine ⟨by decide, ?_⟩
  apply deduplicate_overlap_spec.2.2.1
  · decide
  · decide
  · decide
  · decide
  · intro j hj1 hj2
    have hj2' : j ≤ 4 := by
      have hmin : min (["the".data, "quick".data, "brown".data, "fox".data] :
          List (List Char)).length (splitWhitespace "brown fox jumps over".data).length = 4 := by
        decide
      omega
    interval_cases j <;> decide

/-- The `MessageType` enum of `src/net/protocol.rs`. -/
inductive MessageType where
  | AudioData
  | PassphraseChangeRequest
  | PassphraseChangeAck
  | EndOfStream
deriving DecidableEq

/-- The `repr(u8)` discriminants (`message_type as u8`). -/
def MessageType.toU8 : MessageType → ℕ
  | .AudioData => 0x01
  | .PassphraseChangeRequest => 0x02
  | .PassphraseChangeAck => 0x03
  | .EndOfStream => 0xFF

/-- `MessageType::from_u8`. -/
def MessageType.from_u8 (v : ℕ) : Option MessageType :=
  if v = 0x01 then some .AudioData
  else if v = 0x02 then some .PassphraseChangeRequest
  else if v = 0x03 then some .PassphraseChangeAck
  else if v = 0xFF then some .EndOfStream
  else none

/-- The `DecodedMessage` struct of `src/net/protocol.rs`. -/
structure DecodedMessage where
  serial : ℕ
  message_type : MessageType
  data : List ℕ
deriving DecidableEq

/-- The error taxonomy (`HooverError`), restricted to the variants the
protocol code produces; the human-readable messages are dropped. -/
inductive HooverError where
  | Network
  | Crypto
deriving DecidableEq

/-- Modelled from the spec: the keystream of an ideal AES-256-GCM stand-in.
The AEAD itself lives in the external `aes_gcm` crate, not in this
repository; the spec (§4.4, glossary) fixes its shape — 32-byte key, 12-byte
nonce, ciphertext = body of the plaintext's length plus a 16-byte tag — which
this deterministic model reproduces. -/
def keystreamByte (key nonce : List ℕ) (i : ℕ) : ℕ :=
  ((key ++ nonce).foldl (fun a b => a * 131 + b + 1) 0 + 97 * i) % 256

/-- XOR a byte list against the keystream starting at index `i`. -/
def xorKeystream (key nonce : List ℕ) : ℕ → List ℕ → List ℕ
  | _, [] => []
  | i, b :: rest => (b ^^^ keystreamByte key nonce i) :: xorKeystream key nonce (i + 1) rest

/-- Modelled from the spec: the 16-byte authentication tag binding key, nonce
and ciphertext body. -/
def aeadTag (key nonce body : List ℕ) : List ℕ :=
  (List.range 16).map
    (fun i => ((key ++ nonce ++ body).foldl (fun a b => a * 131 + b + 3) 1 + 59 * i) % 256)

/-- Modelled from the spec: ideal AEAD sealing (body XOR keystream, tag
appended). -/
def aeadEncrypt (key nonce pt : List ℕ) : List ℕ :=
  xorKeystream key nonce 0 pt ++ aeadTag key nonce (xorKeystream key nonce 0 pt)

/-- Modelled from the spec: ideal AEAD opening — recompute the tag over the
body and reject on mismatch (or on ciphertext shorter than the tag). -/
def aeadDecrypt (key nonce ct : List ℕ) : Except HooverError (List ℕ) :=
  if ct.length < 16 then .error .Crypto
  else
    if aeadTag key nonce (ct.take (ct.length - 16)) = ct.drop (ct.length - 16) then
      .ok (xorKeystream key nonce 0 (ct.take (ct.length - 16)))
    else .error .Crypto

/-- The `CryptoContext` of `src/net/crypto.rs`: holds the 32-byte key.  The
source draws a fresh random nonce inside `encrypt`; the model takes the nonce
as an explicit argument (the RNG is not shallow-embeddable). -/
structure CryptoContext where
  key_bytes : List ℕ
deriving DecidableEq

/-- `CryptoContext::encrypt`: returns `(ciphertext, nonce)`. -/
def CryptoContext.encrypt (ctx : CryptoContext) (nonce plaintext : List ℕ) :
    List ℕ × List ℕ :=
  (aeadEncrypt ctx.key_bytes nonce plaintext, nonce)

/-- `CryptoContext::decrypt`. -/
def CryptoContext.decrypt (ctx : CryptoContext) (nonce ciphertext : List ℕ) :
    Except HooverError (List ℕ) :=
  aeadDecrypt ctx.key_bytes nonce ciphertext

theorem xorKeystream_length (key nonce : List ℕ) :
    ∀ (i : ℕ) (pt : List ℕ), (xorKeystream key nonce i pt).length = pt.length
  | _, [] => rfl
  | i, _ :: rest => by
    simp only [xorKeystream, List.length_cons]
    rw [xorKeystream_length key nonce (i + 1) rest]

theorem xorKeystream_involutive (key nonce : List ℕ) :
    ∀ (i : ℕ) (pt : List ℕ), xorKeystream key nonce i (xorKeystream key nonce i pt) = pt
  | _, [] => rfl
  | i, b :: rest => by
    simp only [xorKeystream]
    rw [xorKeystream_involutive key nonce (i + 1) rest, Nat.xor_assoc, Nat.xor_self,
      Nat.xor_zero]

theorem aeadTag_length (key nonce body : List ℕ) : (aeadTag key nonce body).length = 16 := by
  simp [aeadTag]

/-- Round trip of the spec-modelled AEAD. -/
theorem aead_round_trip (key nonce pt : List ℕ) :
    aeadDecrypt key nonce (aeadEncrypt key nonce pt) = .ok pt := by
  unfold aeadEncrypt aeadDecrypt
  have hlen : (xorKeystream key nonce 0 pt ++
      aeadTag key nonce (xorKeystream key nonce 0 pt)).length = pt.length + 16 := by
    rw [List.length_append, xorKeystream_length, aeadTag_length]
  rw [if_neg (by omega)]
  have hsub : (xorKeystream key nonce 0 pt ++
      aeadTag key nonce (xorKeystream key nonce 0 pt)).length - 16 =
      (xorKeystream key nonce 0 pt).length := by
    rw [hlen, xorKeystream_length]
    omega
  rw [hsub, List.take_left, List.drop_left, if_pos rfl, xorKeystream_involutive]

/-- Wire layout of `src/net/protocol.rs`: `u64::to_be_bytes`. -/
def u64_to_be (n : ℕ) : List ℕ :=
  [n / 2^56 % 256, n / 2^48 % 256, n / 2^40 % 256, n / 2^32 % 256,
   n / 2^24 % 256, n / 2^16 % 256, n / 2^8 % 256, n % 256]

/-- `u64::from_be_bytes`. -/
def u64_from_be (bytes : List ℕ) : ℕ :=
  bytes.foldl (fun a b => a * 256 + b) 0

/-- The minimum packet size constant: 8 (serial) + 12 (nonce) + 1 (minimum
ciphertext body) + 16 (tag). -/
def MIN_PACKET_SIZE : ℕ := 8 + 12 + 1 + 16

/-- `encode_packet`: prepend the type byte to the data, seal, and emit
`serial_be || nonce || ciphertext`.  (In the source encryption returns
`Result` but cannot fail for a well-formed key; the wrapper is dropped.) -/
def encode_packet (serial : ℕ) (message_type : MessageType) (data : List ℕ)
    (crypto : CryptoContext) (nonce : List ℕ) : List ℕ :=
  u64_to_be serial ++ nonce ++ (crypto.encrypt nonce (message_type.toU8 :: data)).1

/-- `decode_packet`: reject short packets with a `Network` error, read the
plaintext serial and the nonce, decrypt the remainder, split the payload into
type byte and data. -/
def decode_packet (packet : List ℕ) (crypto : CryptoContext) :
    Except HooverError DecodedMessage :=
  if packet.length < MIN_PACKET_SIZE then .error .Network
  else
    match crypto.decrypt ((packet.drop 8).take 12) (packet.drop 20) with
    | .error e => .error e
    | .ok payload =>
      match payload with
      | [] => .error .Network
      | t :: data =>
        match MessageType.from_u8 t with
        | none => .error .Network
        | some mt => .ok ⟨u64_from_be (packet.take 8), mt, data⟩

theorem u64_round_trip (n : ℕ) (h : n < 2^64) : u64_from_be (u64_to_be n) = n := by
  simp only [u64_to_be, u64_from_be, List.foldl_cons, List.foldl_nil]
  omega

theorem from_u8_toU8 (mt : MessageType) : MessageType.from_u8 mt.toU8 = some mt := by
  cases mt <;> rfl

/-- C4: decoding an encoded packet with the same key recovers serial, type
and data exactly; and every packet shorter than 37 bytes fails to decode with
a `Network` error.  (The AEAD inside is the spec-modelled ideal cipher.) -/
theorem codec_round_trip :
    (∀ (serial : ℕ) (mt : MessageType) (data key nonce : List ℕ),
      serial < 2^64 → key.length = 32 → nonce.length = 12 →
      decode_packet (encode_packet serial mt data ⟨key⟩ nonce) ⟨key⟩ =
        .ok ⟨serial, mt, data⟩) ∧
    (∀ (packet : List ℕ) (crypto : CryptoContext), packet.length < MIN_PACKET_SIZE →
      decode_packet packet crypto = .error .Network) := by
  constructor
  · intro serial mt data key nonce hserial hkey hnonce
    have hbe : (u64_to_be serial).length = 8 := rfl
    have hct : ((CryptoContext.mk key).encrypt nonce (mt.toU8 :: data)).1.length =
        data.length + 17 := by
      show (aeadEncrypt key nonce (mt.toU8 :: data)).length = data.length + 17
      unfold aeadEncrypt
      rw [List.length_append, xorKeystream_length, aeadTag_length, List.length_cons]
    have hplen : (encode_packet serial mt data ⟨key⟩ nonce).length = data.length + 37 := by
      unfold encode_packet
      rw [List.length_append, List.length_append, hbe, hnonce, hct]
      omega
    unfold decode_packet
    rw [if_neg (by rw [hplen]; unfold MIN_PACKET_SIZE; omega)]
    have hassoc : encode_packet serial mt data ⟨key⟩ nonce =
        u64_to_be serial ++ (nonce ++ ((CryptoContext.mk key).encrypt nonce
          (mt.toU8 :: data)).1) := by
      unfold encode_packet
      rw [List.append_assoc]
    have hdrop8 : (encode_packet serial mt data ⟨key⟩ nonce).drop 8 =
        nonce ++ ((CryptoContext.mk key).encrypt nonce (mt.toU8 :: data)).1 := by
      rw [hassoc, ← hbe, List.drop_left]
    have htake8 : (encode_packet serial mt data ⟨key⟩ nonce).take 8 = u64_to_be serial := by
      rw [hassoc, ← hbe, List.take_left]
    have htake12 : ((encode_packet serial mt data ⟨key⟩ nonce).drop 8).take 12 = nonce := by
      rw [hdrop8, ← hnonce, List.take_left]
    have hdrop20 : (encode_packet serial mt data ⟨key⟩ nonce).drop 20 =
        ((CryptoContext.mk key).encrypt nonce (mt.toU8 :: data)).1 := by
      have h1 : (20 : ℕ) = 8 + 12 := rfl
      rw [h1, ← List.drop_drop, hdrop8, ← hnonce, List.drop_left]
    rw [htake12, hdrop20, htake8]
    have hdec : (CryptoContext.mk key).decrypt nonce
        (((CryptoContext.mk key).encrypt nonce (mt.toU8 :: data)).1) =
        .ok (mt.toU8 :: data) := aead_round_trip key nonce (mt.toU8 :: data)
    rw [hdec, u64_round_trip serial hserial]
    cases mt <;> rfl
  · intro packet crypto h
    unfold decode_packet
    rw [if_pos h]

theorem codec_round_trip_witness :
    decode_packet
        (encode_packet 42 .AudioData [7] ⟨List.replicate 32 171⟩ (List.replicate 12 5))
        ⟨List.replicate 32 171⟩ = .ok ⟨42, .AudioData, [7]⟩ ∧
      decode_packet [0, 1, 2] ⟨List.replicate 32 171⟩ = .error .Network :=
  ⟨codec_round_trip.1 42 .AudioData [7] (List.replicate 32 171) (List.replicate 12 5)
      (by norm_num) (by simp) (by simp),
    codec_round_trip.2 [0, 1, 2] ⟨List.replicate 32 171⟩ (by norm_num [MIN_PACKET_SIZE])⟩

/-- The `PacketOrderer` of `src/net/protocol.rs`.  The
`BTreeMap<u64, DecodedMessage>` buffer is modelled as an association list
whose keys strictly increase (the map's iteration order). -/
structure PacketOrderer where
  expected_serial : ℕ
  buffer : List (ℕ × DecodedMessage)
  backlog : ℕ
deriving DecidableEq

/-- `PacketOrderer::new`. -/
def PacketOrderer.new (backlog : ℕ) : PacketOrderer :=
  { expected_serial := 0, buffer := [], backlog := backlog }

/-- `BTreeMap::insert` on the sorted association list (replacing an existing
binding with the same key). -/
def btreeInsert (k : ℕ) (m : DecodedMessage) : List (ℕ × DecodedMessage) →
    List (ℕ × DecodedMessage)
  | [] => [(k, m)]
  | (k', m') :: rest =>
    if k < k' then (k, m) :: (k', m') :: rest
    else if k = k' then (k, m) :: rest
    else (k', m') :: btreeInsert k m rest

/-- `BTreeMap::remove`: take out the first binding with the key, if any. -/
def btreeRemove (k : ℕ) : List (ℕ × DecodedMessage) →
    Option (DecodedMessage × List (ℕ × DecodedMessage))
  | [] => none
  | (k', m') :: rest =>
    if k = k' then some (m', rest)
    else
      match btreeRemove k rest with
      | some (m, rest') => some (m, (k', m') :: rest')
      | none => none

/-- Keys strictly increase along the buffer. -/
def KeysSorted (buf : List (ℕ × DecodedMessage)) : Prop :=
  List.Chain' (fun a b => a.1 < b.1) buf

/-- Every binding's key is its message's serial and strictly exceeds `e`
(the orderer's `expected_serial`). -/
def KeysLegit (e : ℕ) (buf : List (ℕ × DecodedMessage)) : Prop :=
  ∀ p ∈ buf, p.2.serial = p.1 ∧ e < p.1

/-- Well-formedness of an orderer state. -/
def OrdInv (st : PacketOrderer) : Prop :=
  KeysSorted st.buffer ∧ KeysLegit st.expected_serial st.buffer

theorem keysSorted_cons {p : ℕ × DecodedMessage} {rest : List (ℕ × DecodedMessage)}
    (h : KeysSorted (p :: rest)) : KeysSorted rest :=
  List.Chain'.tail h

/-- In a sorted buffer the head key is strictly below every other key. -/
theorem keysSorted_head_lt {p : ℕ × DecodedMessage} {rest : List (ℕ × DecodedMessage)}
    (h : KeysSorted (p :: rest)) : ∀ q ∈ rest, p.1 < q.1 := by
  intro q hq
  haveI : IsTrans (ℕ × DecodedMessage) (fun a b => a.1 < b.1) :=
    ⟨fun a b c hab hbc => lt_trans hab hbc⟩
  have hp : List.Pairwise (fun a b => a.1 < b.1) (p :: rest) :=
    List.chain'_iff_pairwise.mp h
  exact (List.pairwise_cons.mp hp).1 q hq

theorem btreeInsert_mem_weak (k : ℕ) (m : DecodedMessage) :
    ∀ (buf : List (ℕ × DecodedMessage)) (p), p ∈ btreeInsert k m buf → p = (k, m) ∨ p ∈ buf
  | [], p, h => by simpa [btreeInsert] using h
  | (k', m') :: rest, p, h => by
    unfold btreeInsert at h
    split at h
    · rcases List.mem_cons.mp h with rfl | h2
      · exact Or.inl rfl
      · exact Or.inr h2
    · split at h
      · rcases List.mem_cons.mp h with rfl | h2
        · exact Or.inl rfl
        · exact Or.inr (List.mem_cons_of_mem _ h2)
      · rcases List.mem_cons.mp h with rfl | h2
        · exact Or.inr (List.mem_cons_self _ _)
        · rcases btreeInsert_mem_weak k m rest p h2 with h3 | h3
          · exact Or.inl h3
          · exact Or.inr (List.mem_cons_of_mem _ h3)

theorem btreeInsert_sorted (k : ℕ) (m : DecodedMessage) :
    ∀ buf : List (ℕ × DecodedMessage), KeysSorted buf → KeysSorted (btreeInsert k m buf)
  | [], _ => by simp [btreeInsert, KeysSorted]
  | (k', m') :: rest, h => by
    unfold btreeInsert
    split
    · rename_i hlt
      refine List.chain'_cons.mpr ⟨hlt, h⟩
    · split
      · rename_i hne heq
        subst heq
        unfold KeysSorted at h ⊢
        rw [List.chain'_cons']
        refine ⟨?_, (List.chain'_cons'.mp h).2⟩
        intro y hy
        exact (List.chain'_cons'.mp h).1 y hy
      · rename_i hne1 hne2
        have hgt : k' < k := by omega
        have hrec := btreeInsert_sorted k m rest (keysSorted_cons h)
        unfold KeysSorted at hrec ⊢
        rw [List.chain'_cons']
        refine ⟨?_, hrec⟩
        intro y hy
        have hmem : y = (k, m) ∨ y ∈ rest :=
          btreeInsert_mem_weak k m rest y (List.mem_of_mem_head? hy)
        rcases hmem with rfl | hmem
        · exact hgt
        · exact keysSorted_head_lt h y hmem

/-- Membership after `btreeInsert` on a sorted buffer: the new binding plus
every old binding whose key differs. -/
theorem btreeInsert_mem (k : ℕ) (m : DecodedMessage) :
    ∀ (buf : List (ℕ × DecodedMessage)), KeysSorted buf →
      ∀ p, p ∈ btreeInsert k m buf ↔ p = (k, m) ∨ (p ∈ buf ∧ p.1 ≠ k)
  | [], _, p => by simp [btreeInsert]
  | (k', m') :: rest, h, p => by
    unfold btreeInsert
    split
    · rename_i hlt
      constructor
      · intro hp
        rcases List.mem_cons.mp hp with rfl | hp
        · exact Or.inl rfl
        · refine Or.inr ⟨hp, ?_⟩
          rcases List.mem_cons.mp hp with rfl | hp2
          · omega
          · have := keysSorted_head_lt h _ hp2
            omega
      · intro hp
        rcases hp with rfl | ⟨hp, _⟩
        · exact List.mem_cons_self _ _
        · exact List.mem_cons_of_mem _ hp
    · split
      · rename_i hne heq
        subst heq
        constructor
        · intro hp
          rcases List.mem_cons.mp hp with rfl | hp
          · exact Or.inl rfl
          · refine Or.inr ⟨List.mem_cons_of_mem _ hp, ?_⟩
            have := keysSorted_head_lt h _ hp
            omega
        · intro hp
          rcases hp with rfl | ⟨hp, hpk⟩
          · exact List.mem_cons_self _ _
          · rcases List.mem_cons.mp hp with rfl | hp2
            · exact absurd rfl hpk
            · exact List.mem_cons_of_mem _ hp2
      · rename_i hne1 hne2
        have hrec := btreeInsert_mem k m rest (keysSorted_cons h)
        constructor
        · intro hp
          rcases List.mem_cons.mp hp with rfl | hp
          · refine Or.inr ⟨List.mem_cons_self _ _, by simpa using fun heq => hne2 heq.symm⟩
          · rcases (hrec p).mp hp with h1 | ⟨h1, h2⟩
            · exact Or.inl h1
            · exact Or.inr ⟨List.mem_cons_of_mem _ h1, h2⟩
        · intro hp
          rcases hp with rfl | ⟨hp, hpk⟩
          · exact List.mem_cons_of_mem _ ((hrec _).mpr (Or.inl rfl))
          · rcases List.mem_cons.mp hp with rfl | hp2
            · exact List.mem_cons_self _ _
            · exact List.mem_cons_of_mem _ ((hrec p).mpr (Or.inr ⟨hp2, hpk⟩))

theorem btreeRemove_none (k : ℕ) :
    ∀ buf : List (ℕ × DecodedMessage), btreeRemove k buf = none ↔ k ∉ buf.map Prod.fst
  | [] => by simp [btreeRemove]
  | (k', m') :: rest => by
    unfold btreeRemove
    split
    · rename_i heq
      subst heq
      simp
    · rename_i hne
      rcases hrec : btreeRemove k rest with _ | ⟨m, rest'⟩
      · have h2 := (btreeRemove_none k rest).mp hrec
        simp [hne, h2]
      · have h2 : k ∈ rest.map Prod.fst := by
          by_contra hmem
          rw [← btreeRemove_none k rest] at hmem
          rw [hmem] at hrec
          exact Option.noConfusion hrec
        simp [hne, h2]

/-- Decomposition of a successful `btreeRemove` on a sorted buffer. -/
theorem btreeRemove_some (k : ℕ) :
    ∀ (buf : List (ℕ × DecodedMessage)), KeysSorted buf →
    ∀ {m rest}, btreeRemove k buf = some (m, rest) →
      (k, m) ∈ buf ∧ KeysSorted rest ∧ rest.length + 1 = buf.length ∧
      ∀ p, p ∈ rest ↔ p ∈ buf ∧ p.1 ≠ k
  | [], _, m, rest, h => by simp [btreeRemove] at h
  | (k', m') :: tl, hs, m, rest, h => by
    unfold btreeRemove at h
    split at h
    · rename_i heq
      subst heq
      simp only [Option.some.injEq, Prod.mk.injEq] at h
      obtain ⟨rfl, rfl⟩ := h
      refine ⟨List.mem_cons_self _ _, keysSorted_cons hs, by simp, ?_⟩
      intro p
      constructor
      · intro hp
        refine ⟨List.mem_cons_of_mem _ hp, ?_⟩
        have := keysSorted_head_lt hs _ hp
        omega
      · intro ⟨hp, hpk⟩
        rcases List.mem_cons.mp hp with rfl | hp2
        · exact absurd rfl hpk
        · exact hp2
    · rename_i hne
      rcases hrec : btreeRemove k tl with _ | ⟨m0, rest0⟩
      · rw [hrec] at h; exact Option.noConfusion h
      · rw [hrec] at h
        simp only [Option.some.injEq, Prod.mk.injEq] at h
        obtain ⟨rfl, rfl⟩ := h
        obtain ⟨hmem, hsor, hlen, hiff⟩ := btreeRemove_some k tl (keysSorted_cons hs) hrec
        refine ⟨List.mem_cons_of_mem _ hmem, ?_, by simp [← hlen], ?_⟩
        · unfold KeysSorted
          rw [List.chain'_cons']
          refine ⟨?_, hsor⟩
          intro y hy
          have hy2 : y ∈ rest0 := List.mem_of_mem_head? hy
          exact keysSorted_head_lt hs y ((hiff y).mp hy2).1
        · intro p
          constructor
          · intro hp
            rcases List.mem_cons.mp hp with rfl | hp2
            · exact ⟨List.mem_cons_self _ _, by simpa using fun heq => hne heq.symm⟩
            · obtain ⟨h1, h2⟩ := (hiff p).mp hp2
              exact ⟨List.mem_cons_of_mem _ h1, h2⟩
          · intro ⟨hp, hpk⟩
            rcases List.mem_cons.mp hp with rfl | hp2
            · exact List.mem_cons_self _ _
            · exact List.mem_cons_of_mem _ ((hiff p).mpr ⟨hp2, hpk⟩)

theorem btreeRemove_length {k : ℕ} : ∀ {buf : List (ℕ × DecodedMessage)} {m rest},
    btreeRemove k buf = some (m, rest) → rest.length < buf.length := by
  intro buf
  induction buf with
  | nil => intro m rest h; simp [btreeRemove] at h
  | cons p tl ih =>
    intro m rest h
    unfold btreeRemove at h
    split at h
    · simp only [Option.some.injEq, Prod.mk.injEq] at h
      obtain ⟨rfl, rfl⟩ := h
      simp
    · rcases hrec : btreeRemove k tl with _ | ⟨m0, rest0⟩
      · rw [hrec] at h; exact Option.noConfusion h
      · rw [hrec] at h
        simp only [Option.some.injEq, Prod.mk.injEq] at h
        obtain ⟨rfl, rfl⟩ := h
        have := ih hrec
        simp
        omega

theorem btreeRemove_length_exact {k : ℕ} : ∀ {buf : List (ℕ × DecodedMessage)} {m rest},
    btreeRemove k buf = some (m, rest) → rest.length + 1 = buf.length := by
  intro buf
  induction buf with
  | nil => intro m rest h; simp [btreeRemove] at h
  | cons p tl ih =>
    intro m rest h
    unfold btreeRemove at h
    split at h
    · simp only [Option.some.injEq, Prod.mk.injEq] at h
      obtain ⟨rfl, rfl⟩ := h
      simp
    · rcases hrec : btreeRemove k tl with _ | ⟨m0, rest0⟩
      · rw [hrec] at h; exact Option.noConfusion h
      · rw [hrec] at h
        simp only [Option.some.injEq, Prod.mk.injEq] at h
        obtain ⟨rfl, rfl⟩ := h
        have := ih hrec
        simp
        omega

/-- Fuelled core of the `while let Some(next) = self.buffer.remove(&serial)`
drain loop shared by `PacketOrderer::insert` and `PacketOrderer::drop_oldest`:
starting at `e`, remove and collect the consecutive run `e, e+1, …` while
present.  Each removal shrinks the buffer, so fuel equal to the buffer length
(as supplied by `drainFrom`) always completes the loop. -/
def drainFromF : ℕ → ℕ → List (ℕ × DecodedMessage) →
    List DecodedMessage × ℕ × List (ℕ × DecodedMessage)
  | 0, e, buf => ([], e, buf)
  | fuel + 1, e, buf =>
    match btreeRemove e buf with
    | some (msg, buf') =>
      (msg :: (drainFromF fuel (e + 1) buf').1, (drainFromF fuel (e + 1) buf').2)
    | none => ([], e, buf)

/-- The drain loop: collected messages, the serial one past the run, and the
remaining buffer. -/
def drainFrom (e : ℕ) (buf : List (ℕ × DecodedMessage)) :
    List DecodedMessage × ℕ × List (ℕ × DecodedMessage) :=
  drainFromF buf.length e buf

theorem drainFromF_congr : ∀ (f1 f2 e : ℕ) (buf : List (ℕ × DecodedMessage)),
    buf.length ≤ f1 → buf.length ≤ f2 → drainFromF f1 e buf = drainFromF f2 e buf := by
  intro f1
  induction f1 with
  | zero =>
    intro f2 e buf h1 h2
    have hbuf : buf = [] := List.eq_nil_of_length_eq_zero (by omega)
    subst hbuf
    cases f2 with
    | zero => rfl
    | succ n => rfl
  | succ n ih =>
    intro f2 e buf h1 h2
    cases f2 with
    | zero =>
      have hbuf : buf = [] := List.eq_nil_of_length_eq_zero (by omega)
      subst hbuf
      rfl
    | succ n2 =>
      show (match btreeRemove e buf with
        | some (msg, buf') =>
          (msg :: (drainFromF n (e + 1) buf').1, (drainFromF n (e + 1) buf').2)
        | none => ([], e, buf)) =
        (match btreeRemove e buf with
        | some (msg, buf') =>
          (msg :: (drainFromF n2 (e + 1) buf').1, (drainFromF n2 (e + 1) buf').2)
        | none => ([], e, buf))
      rcases hrem : btreeRemove e buf with _ | ⟨msg, buf'⟩
      · rfl
      · have hlen := btreeRemove_length_exact hrem
        dsimp only
        rw [ih n2 (e + 1) buf' (by omega) (by omega)]

theorem drainFrom_eq_none {e : ℕ} {buf : List (ℕ × DecodedMessage)}
    (h : btreeRemove e buf = none) : drainFrom e buf = ([], e, buf) := by
  rcases buf with _ | ⟨p, tl⟩
  · rfl
  · show drainFromF (tl.length + 1) e (p :: tl) = ([], e, p :: tl)
    unfold drainFromF
    rw [h]

theorem drainFrom_eq_some {e : ℕ} {buf : List (ℕ × DecodedMessage)}
    {msg : DecodedMessage} {buf' : List (ℕ × DecodedMessage)}
    (h : btreeRemove e buf = some (msg, buf')) :
    drainFrom e buf = (msg :: (drainFrom (e + 1) buf').1, (drainFrom (e + 1) buf').2) := by
  rcases buf with _ | ⟨p, tl⟩
  · exact absurd h (by simp [btreeRemove])
  · have hlen : buf'.length = tl.length := by
      have := btreeRemove_length_exact h
      simp at this
      omega
    show drainFromF (tl.length + 1) e (p :: tl) =
      (msg :: (drainFrom (e + 1) buf').1, (drainFrom (e + 1) buf').2)
    unfold drainFromF
    rw [h]
    have hcongr : drainFromF tl.length (e + 1) buf' = drainFrom (e + 1) buf' := by
      unfold drainFrom
      exact drainFromF_congr tl.length buf'.length (e + 1) buf' (by omega) le_rfl
    dsimp only
    rw [hcongr]

/-- Full characterization of the drain loop on a sorted, serial-keyed buffer:
it advances the serial to the end of the consecutive run starting at `e`,
removes exactly the bindings in `[e, end)`, and collects their messages in
serial order. -/
theorem drainFrom_spec :
    ∀ (n e : ℕ) (buf : List (ℕ × DecodedMessage)), buf.length ≤ n → KeysSorted buf →
      (∀ p ∈ buf, p.2.serial = p.1) →
      e ≤ (drainFrom e buf).2.1 ∧
      (∀ j, e ≤ j → j < (drainFrom e buf).2.1 → j ∈ buf.map Prod.fst) ∧
      (drainFrom e buf).2.1 ∉ buf.map Prod.fst ∧
      (∀ p, p ∈ (drainFrom e buf).2.2 ↔
        p ∈ buf ∧ ¬(e ≤ p.1 ∧ p.1 < (drainFrom e buf).2.1)) ∧
      KeysSorted (drainFrom e buf).2.2 ∧
      (∀ p ∈ (drainFrom e buf).2.2, p.2.serial = p.1) ∧
      (drainFrom e buf).1.map DecodedMessage.serial =
        List.range' e ((drainFrom e buf).2.1 - e) := by
  intro n
  induction n with
  | zero =>
    intro e buf hn hs hk
    have hbuf : buf = [] := List.eq_nil_of_length_eq_zero (by omega)
    subst hbuf
    have heq : drainFrom e [] = ([], e, []) := drainFrom_eq_none (by rfl)
    rw [heq]
    dsimp only
    refine ⟨le_rfl, ?_, by simp, by simp, by simp [KeysSorted], by simp, by simp⟩
    intro j h1 h2
    omega
  | succ n ih =>
    intro e buf hn hs hk
    rcases hrem : btreeRemove e buf with _ | ⟨msg, buf'⟩
    · have heq := drainFrom_eq_none hrem
      rw [heq]
      dsimp only
      refine ⟨le_rfl, ?_, (btreeRemove_none e buf).mp hrem, ?_, hs, hk, by simp⟩
      · intro j h1 h2
        omega
      · intro p
        constructor
        · intro hp
          exact ⟨hp, by omega⟩
        · intro hp
          exact hp.1
    · have heq := drainFrom_eq_some hrem
      obtain ⟨hmem, hsor', hlen, hiff⟩ := btreeRemove_some e buf hs hrem
      have hk' : ∀ p ∈ buf', p.2.serial = p.1 := by
        intro p hp
        exact hk p ((hiff p).mp hp).1
      obtain ⟨ih1, ih2, ih3, ih4, ih5, ih6, ih7⟩ :=
        ih (e + 1) buf' (by omega) hsor' hk'
      rw [heq]
      dsimp only
      refine ⟨by omega, ?_, ?_, ?_, ih5, ih6, ?_⟩
      · intro j h1 h2
        rcases Nat.eq_or_lt_of_le h1 with heqj | hgt
        · exact List.mem_map.mpr ⟨(e, msg), hmem, heqj⟩
        · have hj := ih2 j (by omega) h2
          obtain ⟨p, hp, hpj⟩ := List.mem_map.mp hj
          exact List.mem_map.mpr ⟨p, ((hiff p).mp hp).1, hpj⟩
      · intro hcon
        obtain ⟨p, hp, hpe⟩ := List.mem_map.mp hcon
        have hpne : p.1 ≠ e := by omega
        have : p ∈ buf' := (hiff p).mpr ⟨hp, hpne⟩
        exact ih3 (List.mem_map.mpr ⟨p, this, hpe⟩)
      · intro p
        rw [ih4, hiff]
        constructor
        · intro ⟨⟨h1, h2⟩, h3⟩
          exact ⟨h1, by omega⟩
        · intro ⟨h1, h2⟩
          have hararm : p.1 ≠ e := by
            intro hcon
            exact h2 ⟨by omega, by omega⟩
          refine ⟨⟨h1, hararm⟩, by omega⟩
      · simp only [List.map_cons, ih7]
        have hserial : msg.serial = e := hk (e, msg) hmem
        rw [hserial]
        have hn1 : (drainFrom (e + 1) buf').2.1 - e = ((drainFrom (e + 1) buf').2.1 - (e + 1)) + 1 := by
          omega
        rw [hn1, List.range'_succ]

/-- `PacketOrderer::drop_oldest`: advance `expected_serial` to the oldest
buffered serial, then silently drain that consecutive run.  The first
component is the ghost log of dropped serials, used only to state the
accounting claims; the state transition is exactly the source's. -/
def PacketOrderer.drop_oldest (st : PacketOrderer) : List ℕ × PacketOrderer :=
  match st.buffer with
  | [] => ([], st)
  | (oldest, _) :: _ =>
    ((drainFrom oldest st.buffer).1.map DecodedMessage.serial,
      { st with
        expected_serial := (drainFrom oldest st.buffer).2.1,
        buffer := (drainFrom oldest st.buffer).2.2 })

/-- `PacketOrderer::insert`: old serials are discarded; the expected serial is
emitted together with the buffered consecutive run; future serials are
buffered, triggering `drop_oldest` when the buffer exceeds the backlog.
Returns `(ready, skipped-serial ghost log, new state)`. -/
def PacketOrderer.insert (st : PacketOrderer) (msg : DecodedMessage) :
    List DecodedMessage × List ℕ × PacketOrderer :=
  if msg.serial < st.expected_serial then ([], [], st)
  else if msg.serial = st.expected_serial then
    (msg :: (drainFrom (st.expected_serial + 1) st.buffer).1, [],
      { st with
        expected_serial := (drainFrom (st.expected_serial + 1) st.buffer).2.1,
        buffer := (drainFrom (st.expected_serial + 1) st.buffer).2.2 })
  else
    if st.backlog < (btreeInsert msg.serial msg st.buffer).length then
      ([],
        (PacketOrderer.drop_oldest
          { st with buffer := btreeInsert msg.serial msg st.buffer }).1,
        (PacketOrderer.drop_oldest
          { st with buffer := btreeInsert msg.serial msg st.buffer }).2)
    else ([], [], { st with buffer := btreeInsert msg.serial msg st.buffer })

/-- A sequence of `insert` calls: concatenated emitted messages, concatenated
skip log, final state. -/
def PacketOrderer.run (st : PacketOrderer) :
    List DecodedMessage → List DecodedMessage × List ℕ × PacketOrderer
  | [] => ([], [], st)
  | m :: rest =>
    ((st.insert m).1 ++ ((st.insert m).2.2.run rest).1,
      (st.insert m).2.1 ++ ((st.insert m).2.2.run rest).2.1,
      ((st.insert m).2.2.run rest).2.2)

theorem btreeInsert_ne_nil (k : ℕ) (m : DecodedMessage) :
    ∀ buf : List (ℕ × DecodedMessage), btreeInsert k m buf ≠ []
  | [] => by simp [btreeInsert]
  | (k', m') :: rest => by
    unfold btreeInsert
    split
    · simp
    · split <;> simp

theorem keys_btreeInsert (k : ℕ) (m : DecodedMessage) (buf : List (ℕ × DecodedMessage))
    (hs : KeysSorted buf) (s : ℕ) :
    s ∈ (btreeInsert k m buf).map Prod.fst ↔ s = k ∨ s ∈ buf.map Prod.fst := by
  constructor
  · intro h
    obtain ⟨p, hp, hps⟩ := List.mem_map.mp h
    rcases (btreeInsert_mem k m buf hs p).mp hp with rfl | ⟨hp2, _⟩
    · exact Or.inl hps.symm
    · exact Or.inr (List.mem_map.mpr ⟨p, hp2, hps⟩)
  · intro h
    rcases h with rfl | h
    · exact List.mem_map.mpr ⟨(s, m), (btreeInsert_mem s m buf hs (s, m)).mpr (Or.inl rfl), rfl⟩
    · obtain ⟨p, hp, hps⟩ := List.mem_map.mp h
      by_cases hpk : p.1 = k
      · exact List.mem_map.mpr
          ⟨(k, m), (btreeInsert_mem k m buf hs (k, m)).mpr (Or.inl rfl), by omega⟩
      · exact List.mem_map.mpr ⟨p, (btreeInsert_mem k m buf hs p).mpr (Or.inr ⟨hp, hpk⟩), hps⟩

/-- Effect of `drop_oldest` on a well-formed nonempty buffer: the expected
serial advances into the buffered range, the dropped serials lie strictly
between the old and new expected serial, and every buffered serial is either
dropped or still buffered. -/
theorem drop_oldest_spec (st : PacketOrderer) (hs : KeysSorted st.buffer)
    (hl : KeysLegit st.expected_serial st.buffer) (hne : st.buffer ≠ []) :
    OrdInv st.drop_oldest.2 ∧
    st.expected_serial ≤ st.drop_oldest.2.expected_serial ∧
    (∀ s ∈ st.drop_oldest.1,
      st.expected_serial < s ∧ s < st.drop_oldest.2.expected_serial) ∧
    (∀ s ∈ st.buffer.map Prod.fst,
      s ∈ st.drop_oldest.1 ∨ s ∈ st.drop_oldest.2.buffer.map Prod.fst) := by
  obtain ⟨⟨oldest, m0⟩, tl, hb⟩ : ∃ p tl, st.buffer = p :: tl := by
    cases hx : st.buffer with
    | nil => exact absurd hx hne
    | cons a b => exact ⟨a, b, rfl⟩
  · have hmin : ∀ p ∈ st.buffer, oldest ≤ p.1 := by
      intro p hp
      rw [hb] at hp
      rcases List.mem_cons.mp hp with rfl | hp2
      · exact le_rfl
      · rw [hb] at hs
        exact le_of_lt (keysSorted_head_lt hs p hp2)
    have holdgt : st.expected_serial < oldest := (hl (oldest, m0) (by rw [hb]; simp)).2
    obtain ⟨d1, d2, d3, d4, d5, d6, d7⟩ :=
      drainFrom_spec st.buffer.length oldest st.buffer le_rfl hs
        (fun p hp => (hl p hp).1)
    have hred : st.drop_oldest =
        ((drainFrom oldest st.buffer).1.map DecodedMessage.serial,
          { st with
            expected_serial := (drainFrom oldest st.buffer).2.1,
            buffer := (drainFrom oldest st.buffer).2.2 }) := by
      unfold PacketOrderer.drop_oldest
      rw [hb]
    rw [hred]
    dsimp only
    refine ⟨⟨d5, ?_⟩, by omega, ?_, ?_⟩
    · intro p hp
      obtain ⟨hpb, hpd⟩ := (d4 p).mp hp
      refine ⟨(hl p hpb).1, ?_⟩
      have hpo : oldest ≤ p.1 := hmin p hpb
      have hne2 : p.1 ≠ (drainFrom oldest st.buffer).2.1 := by
        intro hcon
        exact d3 (List.mem_map.mpr ⟨p, hpb, hcon⟩)
      dsimp only
      omega
    · intro s hs2
      rw [d7, List.mem_range'_1] at hs2
      exact ⟨by omega, by omega⟩
    · intro s hs2
      obtain ⟨p, hp, hps⟩ := List.mem_map.mp hs2
      by_cases hrange : oldest ≤ p.1 ∧ p.1 < (drainFrom oldest st.buffer).2.1
      · refine Or.inl ?_
        rw [d7, List.mem_range'_1]
        omega
      · refine Or.inr ?_
        exact List.mem_map.mpr ⟨p, (d4 p).mpr ⟨hp, hrange⟩, hps⟩

/-- Effect of one `insert` on a well-formed state: well-formedness and
monotonicity of `expected_serial` are preserved; the emitted serials are
exactly the interval the expected serial advances over; emission and
skipping never happen in the same call; skipped serials lie strictly between
the old and new expected serials; a message inserted at or above the
expected serial lands in the output, the skip log, or the buffer; and every
previously buffered serial stays in one of those three places. -/
theorem insert_step (st : PacketOrderer) (msg : DecodedMessage) (hinv : OrdInv st) :
    OrdInv (st.insert msg).2.2 ∧
    st.expected_serial ≤ (st.insert msg).2.2.expected_serial ∧
    ((st.insert msg).1 = [] ∨
      (st.insert msg).1.map DecodedMessage.serial =
        List.range' st.expected_serial
          ((st.insert msg).2.2.expected_serial - st.expected_serial)) ∧
    ((st.insert msg).1 = [] ∨ (st.insert msg).2.1 = []) ∧
    (∀ s ∈ (st.insert msg).2.1,
      st.expected_serial < s ∧ s < (st.insert msg).2.2.expected_serial) ∧
    (st.expected_serial ≤ msg.serial →
      msg.serial ∈ (st.insert msg).1.map DecodedMessage.serial ∨
      msg.serial ∈ (st.insert msg).2.1 ∨
      msg.serial ∈ (st.insert msg).2.2.buffer.map Prod.fst) ∧
    (∀ s ∈ st.buffer.map Prod.fst,
      s ∈ (st.insert msg).1.map DecodedMessage.serial ∨
      s ∈ (st.insert msg).2.1 ∨
      s ∈ (st.insert msg).2.2.buffer.map Prod.fst) := by
  obtain ⟨hsort, hlegit⟩ := hinv
  by_cases h1 : msg.serial < st.expected_serial
  · have hred : st.insert msg = ([], [], st) := by
      unfold PacketOrderer.insert
      rw [if_pos h1]
    rw [hred]
    refine ⟨⟨hsort, hlegit⟩, le_rfl, Or.inl rfl, Or.inl rfl, by simp, ?_, ?_⟩
    · intro h
      omega
    · intro s hs
      exact Or.inr (Or.inr hs)
  · by_cases h2 : msg.serial = st.expected_serial
    · have hred : st.insert msg =
          (msg :: (drainFrom (st.expected_serial + 1) st.buffer).1, [],
            { st with
              expected_serial := (drainFrom (st.expected_serial + 1) st.buffer).2.1,
              buffer := (drainFrom (st.expected_serial + 1) st.buffer).2.2 }) := by
        unfold PacketOrderer.insert
        rw [if_neg h1, if_pos h2]
      rw [hred]
      dsimp only
      obtain ⟨d1, d2, d3, d4, d5, d6, d7⟩ :=
        drainFrom_spec st.buffer.length (st.expected_serial + 1) st.buffer le_rfl hsort
          (fun p hp => (hlegit p hp).1)
      refine ⟨⟨d5, ?_⟩, by omega, Or.inr ?_, Or.inr rfl, by simp, ?_, ?_⟩
      · intro p hp
        obtain ⟨hpb, hpd⟩ := (d4 p).mp hp
        refine ⟨(hlegit p hpb).1, ?_⟩
        have hgt := (hlegit p hpb).2
        have hne : p.1 ≠ (drainFrom (st.expected_serial + 1) st.buffer).2.1 := by
          intro hcon
          exact d3 (List.mem_map.mpr ⟨p, hpb, hcon⟩)
        dsimp only
        omega
      · simp only [List.map_cons, d7, h2]
        have hsplit : (drainFrom (st.expected_serial + 1) st.buffer).2.1 -
            st.expected_serial =
            ((drainFrom (st.expected_serial + 1) st.buffer).2.1 -
              (st.expected_serial + 1)) + 1 := by
          omega
        rw [hsplit, List.range'_succ]
      · intro _
        refine Or.inl ?_
        simp [h2]
      · intro s hs2
        obtain ⟨p, hp, hps⟩ := List.mem_map.mp hs2
        by_cases hrange : st.expected_serial + 1 ≤ p.1 ∧
            p.1 < (drainFrom (st.expected_serial + 1) st.buffer).2.1
        · refine Or.inl ?_
          simp only [List.map_cons, d7]
          refine List.mem_cons.mpr (Or.inr ?_)
          rw [List.mem_range'_1]
          omega
        · refine Or.inr (Or.inr ?_)
          exact List.mem_map.mpr ⟨p, (d4 p).mpr ⟨hp, hrange⟩, hps⟩
    · have hgt : st.expected_serial < msg.serial := by omega
      have hsort1 : KeysSorted (btreeInsert msg.serial msg st.buffer) :=
        btreeInsert_sorted _ _ _ hsort
      have hlegit1 : KeysLegit st.expected_serial (btreeInsert msg.serial msg st.buffer) := by
        intro p hp
        rcases (btreeInsert_mem _ _ _ hsort p).mp hp with rfl | ⟨hp2, _⟩
        · exact ⟨rfl, hgt⟩
        · exact hlegit p hp2
      by_cases h3 : st.backlog < (btreeInsert msg.serial msg st.buffer).length
      · have hred : st.insert msg =
            ([],
              ({ st with buffer := btreeInsert msg.serial msg st.buffer }).drop_oldest.1,
              ({ st with buffer := btreeInsert msg.serial msg st.buffer }).drop_oldest.2) := by
          unfold PacketOrderer.insert
          rw [if_neg h1, if_neg h2, if_pos h3]
        rw [hred]
        dsimp only
        obtain ⟨hinv2, hmono2, hsk2, hpres2⟩ :=
          drop_oldest_spec { st with buffer := btreeInsert msg.serial msg st.buffer }
            hsort1 hlegit1 (btreeInsert_ne_nil _ _ _)
        refine ⟨hinv2, hmono2, Or.inl rfl, Or.inl rfl, hsk2, ?_, ?_⟩
        · intro _
          have hmemk : msg.serial ∈
              (btreeInsert msg.serial msg st.buffer).map Prod.fst :=
            (keys_btreeInsert _ _ _ hsort _).mpr (Or.inl rfl)
          rcases hpres2 msg.serial hmemk with h4 | h4
          · exact Or.inr (Or.inl h4)
          · exact Or.inr (Or.inr h4)
        · intro s hs2
          have hmemk : s ∈ (btreeInsert msg.serial msg st.buffer).map Prod.fst :=
            (keys_btreeInsert _ _ _ hsort _).mpr (Or.inr hs2)
          rcases hpres2 s hmemk with h4 | h4
          · exact Or.inr (Or.inl h4)
          · exact Or.inr (Or.inr h4)
      · have hred : st.insert msg =
            ([], [], { st with buffer := btreeInsert msg.serial msg st.buffer }) := by
          unfold PacketOrderer.insert
          rw [if_neg h1, if_neg h2, if_neg h3]
        rw [hred]
        dsimp only
        refine ⟨⟨hsort1, hlegit1⟩, le_rfl, Or.inl rfl, Or.inl rfl, by simp, ?_, ?_⟩
        · intro _
          exact Or.inr (Or.inr ((keys_btreeInsert _ _ _ hsort _).mpr (Or.inl rfl)))
        · intro s hs2
          exact Or.inr (Or.inr ((keys_btreeInsert _ _ _ hsort _).mpr (Or.inr hs2)))

theorem chain_lt_range' (s : ℕ) : ∀ n, List.Chain' (· < ·) (List.range' s n) := by
  intro n
  induction n generalizing s with
  | zero => exact List.chain'_nil
  | succ k ih =>
    rw [List.range'_succ, List.chain'_cons']
    refine ⟨?_, ih (s + 1)⟩
    intro y hy
    have := List.mem_of_mem_head? hy
    rw [List.mem_range'_1] at this
    omega

/-- A run over an appended message list is the run of the first part followed
by the run of the second from the intermediate state. -/
theorem run_append (st : PacketOrderer) :
    ∀ (xs ys : List DecodedMessage),
      st.run (xs ++ ys) =
        ((st.run xs).1 ++ ((st.run xs).2.2.run ys).1,
          (st.run xs).2.1 ++ ((st.run xs).2.2.run ys).2.1,
          ((st.run xs).2.2.run ys).2.2) := by
  intro xs
  induction xs generalizing st with
  | nil =>
    intro ys
    simp [PacketOrderer.run]
  | cons m rest ih =>
    intro ys
    show PacketOrderer.run st (m :: (rest ++ ys)) = _
    simp only [PacketOrderer.run]
    rw [ih]
    simp [List.append_assoc]

/-- Invariants of a whole run from a well-formed state: the final state is
well-formed, `expected_serial` is monotone, the emitted serials are strictly
increasing and lie in `[initial expected, final expected)`, skipped serials
lie in the same interval, no serial is both emitted and skipped, and every
initially buffered serial is emitted, skipped, or still buffered. -/
theorem run_spec :
    ∀ (ms : List DecodedMessage) (st : PacketOrderer), OrdInv st →
    OrdInv (st.run ms).2.2 ∧
    st.expected_serial ≤ (st.run ms).2.2.expected_serial ∧
    List.Chain' (· < ·) ((st.run ms).1.map DecodedMessage.serial) ∧
    (∀ s ∈ (st.run ms).1.map DecodedMessage.serial,
      st.expected_serial ≤ s ∧ s < (st.run ms).2.2.expected_serial) ∧
    (∀ s ∈ (st.run ms).2.1,
      st.expected_serial ≤ s ∧ s < (st.run ms).2.2.expected_serial) ∧
    (∀ s, ¬(s ∈ (st.run ms).1.map DecodedMessage.serial ∧ s ∈ (st.run ms).2.1)) ∧
    (∀ s ∈ st.buffer.map Prod.fst,
      s ∈ (st.run ms).1.map DecodedMessage.serial ∨ s ∈ (st.run ms).2.1 ∨
      s ∈ (st.run ms).2.2.buffer.map Prod.fst) := by
  intro ms
  induction ms with
  | nil =>
    intro st hinv
    refine ⟨hinv, le_rfl, List.chain'_nil, by simp [PacketOrderer.run], ?_, ?_, ?_⟩
    · simp [PacketOrderer.run]
    · simp [PacketOrderer.run]
    · intro s hs
      exact Or.inr (Or.inr hs)
  | cons m rest ih =>
    intro st hinv
    obtain ⟨S1, S2, S3, S4, S5, S6, S7⟩ := insert_step st m hinv
    obtain ⟨R1, R2, R3, R4, R5, R6, R7⟩ := ih (st.insert m).2.2 S1
    have hout1 : ∀ s ∈ (st.insert m).1.map DecodedMessage.serial,
        st.expected_serial ≤ s ∧ s < (st.insert m).2.2.expected_serial := by
      intro s hs
      rcases S3 with h | h
      · rw [h] at hs
        simp at hs
      · rw [h, List.mem_range'_1] at hs
        omega
    have hchain1 : List.Chain' (· < ·) ((st.insert m).1.map DecodedMessage.serial) := by
      rcases S3 with h | h
      · rw [h]; exact List.chain'_nil
      · rw [h]; exact chain_lt_range' _ _
    show _ ∧ _ ∧ _ ∧ _ ∧ _ ∧ _ ∧ _
    simp only [PacketOrderer.run, List.map_append]
    refine ⟨R1, le_trans S2 R2, ?_, ?_, ?_, ?_, ?_⟩
    · rw [List.chain'_append]
      refine ⟨hchain1, R3, ?_⟩
      intro x hx y hy
      have hx2 := hout1 x (List.mem_of_mem_getLast? hx)
      have hy2 := R4 y (List.mem_of_mem_head? hy)
      omega
    · intro s hs
      rcases List.mem_append.mp hs with hs | hs
      · have := hout1 s hs
        omega
      · have := R4 s hs
        omega
    · intro s hs
      rcases List.mem_append.mp hs with hs | hs
      · have := S5 s hs
        omega
      · have := R5 s hs
        omega
    · intro s ⟨hso, hsk⟩
      rcases List.mem_append.mp hso with hso | hso <;>
        rcases List.mem_append.mp hsk with hsk | hsk
      · rcases S4 with h | h
        · rw [h] at hso; simp at hso
        · rw [h] at hsk; simp at hsk
      · have h1 := hout1 s hso
        have h2 := R5 s hsk
        omega
      · have h1 := S5 s hsk
        have h2 := R4 s hso
        omega
      · exact R6 s ⟨hso, hsk⟩
    · intro s hs
      rcases S7 s hs with h | h | h
      · exact Or.inl (List.mem_append.mpr (Or.inl h))
      · exact Or.inr (Or.inl (List.mem_append.mpr (Or.inl h)))
      · rcases R7 s h with h2 | h2 | h2
        · exact Or.inl (List.mem_append.mpr (Or.inr h2))
        · exact Or.inr (Or.inl (List.mem_append.mpr (Or.inr h2)))
        · exact Or.inr (Or.inr h2)

/-- A freshly constructed orderer is well-formed. -/
theorem ordInv_new (b : ℕ) : OrdInv (PacketOrderer.new b) := by
  constructor
  · simp [PacketOrderer.new, KeysSorted]
  · intro p hp
    simp [PacketOrderer.new] at hp

/-- C3: inserting a future serial stores the message and emits nothing; if
the buffer then exceeds the backlog, the expected serial advances to the
smallest buffered serial, the entire consecutive run starting there is
removed without being emitted, and exactly the bindings at or above the new
expected serial remain.  Concretely (backlog 3, expected 0): inserting
serials 1, 2, 3, 4 emits nothing and leaves the expected serial at least 5
with an empty buffer. -/
theorem insert_future_overflow :
    (∀ (st : PacketOrderer) (msg : DecodedMessage), OrdInv st →
      st.expected_serial < msg.serial →
      (st.insert msg).1 = [] ∧
      ((btreeInsert msg.serial msg st.buffer).length ≤ st.backlog →
        (st.insert msg).2.2 =
          { st with buffer := btreeInsert msg.serial msg st.buffer }) ∧
      (st.backlog < (btreeInsert msg.serial msg st.buffer).length →
        ∃ oldest, oldest ∈ (btreeInsert msg.serial msg st.buffer).map Prod.fst ∧
          (∀ k ∈ (btreeInsert msg.serial msg st.buffer).map Prod.fst, oldest ≤ k) ∧
          oldest ≤ (st.insert msg).2.2.expected_serial ∧
          (∀ j, oldest ≤ j → j < (st.insert msg).2.2.expected_serial →
            j ∈ (btreeInsert msg.serial msg st.buffer).map Prod.fst) ∧
          (st.insert msg).2.2.expected_serial ∉
            (btreeInsert msg.serial msg st.buffer).map Prod.fst ∧
          ∀ p, p ∈ (st.insert msg).2.2.buffer ↔
            p ∈ btreeInsert msg.serial msg st.buffer ∧
              (st.insert msg).2.2.expected_serial ≤ p.1)) ∧
    (((PacketOrderer.new 3).run
        [⟨1, .AudioData, [1]⟩, ⟨2, .AudioData, [2]⟩, ⟨3, .AudioData, [3]⟩,
          ⟨4, .AudioData, [4]⟩]).1 = [] ∧
      5 ≤ ((PacketOrderer.new 3).run
        [⟨1, .AudioData, [1]⟩, ⟨2, .AudioData, [2]⟩, ⟨3, .AudioData, [3]⟩,
          ⟨4, .AudioData, [4]⟩]).2.2.expected_serial ∧
      ((PacketOrderer.new 3).run
        [⟨1, .AudioData, [1]⟩, ⟨2, .AudioData, [2]⟩, ⟨3, .AudioData, [3]⟩,
          ⟨4, .AudioData, [4]⟩]).2.2.buffer.length = 0) := by
  constructor
  · intro st msg hinv hgt
    obtain ⟨hsort, hlegit⟩ := hinv
    have h1 : ¬ msg.serial < st.expected_serial := by omega
    have h2 : ¬ msg.serial = st.expected_serial := by omega
    have hsort1 : KeysSorted (btreeInsert msg.serial msg st.buffer) :=
      btreeInsert_sorted _ _ _ hsort
    have hlegit1 : KeysLegit st.expected_serial (btreeInsert msg.serial msg st.buffer) := by
      intro p hp
      rcases (btreeInsert_mem _ _ _ hsort p).mp hp with rfl | ⟨hp2, _⟩
      · exact ⟨rfl, hgt⟩
      · exact hlegit p hp2
    by_cases h3 : st.backlog < (btreeInsert msg.serial msg st.buffer).length
    · have hred : st.insert msg =
          ([],
            ({ st with buffer := btreeInsert msg.serial msg st.buffer }).drop_oldest.1,
            ({ st with buffer := btreeInsert msg.serial msg st.buffer }).drop_oldest.2) := by
        unfold PacketOrderer.insert
        rw [if_neg h1, if_neg h2, if_pos h3]
      rw [hred]
      dsimp only
      refine ⟨rfl, by intro h; omega, ?_⟩
      intro _
      obtain ⟨⟨oldest, m0⟩, tl, hb⟩ :
          ∃ p tl, btreeInsert msg.serial msg st.buffer = p :: tl := by
        cases hx : btreeInsert msg.serial msg st.buffer with
        | nil => exact absurd hx (btreeInsert_ne_nil _ _ _)
        | cons a b => exact ⟨a, b, rfl⟩
      have hmin : ∀ p ∈ btreeInsert msg.serial msg st.buffer, oldest ≤ p.1 := by
        intro p hp
        rw [hb] at hp
        rcases List.mem_cons.mp hp with rfl | hp2
        · exact le_rfl
        · rw [hb] at hsort1
          exact le_of_lt (keysSorted_head_lt hsort1 p hp2)
      obtain ⟨d1, d2, d3, d4, d5, d6, d7⟩ :=
        drainFrom_spec (btreeInsert msg.serial msg st.buffer).length oldest
          (btreeInsert msg.serial msg st.buffer) le_rfl hsort1
          (fun p hp => (hlegit1 p hp).1)
      have hdrop : ({ st with buffer := btreeInsert msg.serial msg st.buffer }).drop_oldest =
          ((drainFrom oldest (btreeInsert msg.serial msg st.buffer)).1.map
              DecodedMessage.serial,
            { st with
              expected_serial :=
                (drainFrom oldest (btreeInsert msg.serial msg st.buffer)).2.1,
              buffer := (drainFrom oldest (btreeInsert msg.serial msg st.buffer)).2.2 }) := by
        unfold PacketOrderer.drop_oldest
        rw [hb]
      rw [hdrop]
      dsimp only
      refine ⟨oldest, ?_, ?_, d1, d2, d3, ?_⟩
      · exact List.mem_map.mpr ⟨(oldest, m0), by rw [hb]; simp, rfl⟩
      · intro k hk
        obtain ⟨p, hp, hpk⟩ := List.mem_map.mp hk
        have := hmin p hp
        omega
      · intro p
        rw [d4]
        constructor
        · intro ⟨hp1, hp2⟩
          refine ⟨hp1, ?_⟩
          have hpo := hmin p hp1
          have hne : p.1 ≠ (drainFrom oldest (btreeInsert msg.serial msg st.buffer)).2.1 := by
            intro hcon
            exact d3 (List.mem_map.mpr ⟨p, hp1, hcon⟩)
          omega
        · intro ⟨hp1, hp2⟩
          exact ⟨hp1, by omega⟩
    · have hred : st.insert msg =
          ([], [], { st with buffer := btreeInsert msg.serial msg st.buffer }) := by
        unfold PacketOrderer.insert
        rw [if_neg h1, if_neg h2, if_neg h3]
      rw [hred]
      exact ⟨rfl, fun _ => rfl, by intro h; omega⟩
  · refine ⟨by decide, by decide, by decide⟩

theorem insert_future_overflow_witness :
    ((PacketOrderer.new 3).insert ⟨5, .AudioData, []⟩).1 = [] :=
  (insert_future_overflow.1 (PacketOrderer.new 3) ⟨5, .AudioData, []⟩
    (ordInv_new 3) (by decide)).1

/-- The orderer-accounting sentence of the specification, taken literally:
from a fresh orderer, concatenated output serials are strictly increasing,
and a message inserted at or above the then-expected serial appears in the
output at most once — with zero appearances exactly when a backlog-overflow
advance skipped its serial. -/
def ordererClaimC2 (backlog : ℕ) (ms : List DecodedMessage) : Prop :=
  List.Chain' (· < ·)
    (((PacketOrderer.new backlog).run ms).1.map DecodedMessage.serial) ∧
  ∀ ms1 m ms2, ms = ms1 ++ m :: ms2 →
    ((PacketOrderer.new backlog).run ms1).2.2.expected_serial ≤ m.serial →
    (((PacketOrderer.new backlog).run ms).1.map DecodedMessage.serial).count
        m.serial ≤ 1 ∧
    ((((PacketOrderer.new backlog).run ms).1.map DecodedMessage.serial).count
        m.serial = 0 ↔
      m.serial ∈ ((PacketOrderer.new backlog).run ms).2.1)

/-- Counterexample to the literal claim: with backlog 3, inserting the single
future serial 1 into a fresh orderer emits nothing and skips nothing — the
message is simply still buffered — so "appears zero times exactly when a
backlog-overflow advance skipped it" is violated. -/
theorem orderer_claim_counterexample :
    (((PacketOrderer.new 3).run [⟨1, .AudioData, []⟩]).1.map
        DecodedMessage.serial).count 1 = 0 ∧
    1 ∉ ((PacketOrderer.new 3).run [⟨1, .AudioData, []⟩]).2.1 ∧
    ¬ ordererClaimC2 3 [⟨1, .AudioData, []⟩] := by
  refine ⟨by decide, by decide, ?_⟩
  intro h
  have h2 := h.2 [] ⟨1, .AudioData, []⟩ [] rfl (by decide)
  exact absurd (h2.2.mp (by decide)) (by decide)

/-- C2 (amended): from a fresh orderer, the concatenated output serials of
any run of inserts are strictly increasing; a message inserted at or above
the expected serial of its insertion time appears in the output at most
once, and zero times exactly when a backlog-overflow advance skipped its
serial or the serial is still held in the orderer's buffer after the last
insert. -/
theorem orderer_output_accounting (backlog : ℕ) (ms : List DecodedMessage) :
    List.Chain' (· < ·)
      (((PacketOrderer.new backlog).run ms).1.map DecodedMessage.serial) ∧
    ∀ ms1 m ms2, ms = ms1 ++ m :: ms2 →
      ((PacketOrderer.new backlog).run ms1).2.2.expected_serial ≤ m.serial →
      (((PacketOrderer.new backlog).run ms).1.map DecodedMessage.serial).count
          m.serial ≤ 1 ∧
      ((((PacketOrderer.new backlog).run ms).1.map DecodedMessage.serial).count
          m.serial = 0 ↔
        (m.serial ∈ ((PacketOrderer.new backlog).run ms).2.1 ∨
          m.serial ∈
            ((PacketOrderer.new backlog).run ms).2.2.buffer.map Prod.fst)) := by
  obtain ⟨T1, T2, T3, T4, T5, T6, T7⟩ :=
    run_spec ms (PacketOrderer.new backlog) (ordInv_new backlog)
  refine ⟨T3, ?_⟩
  intro ms1 m ms2 hms he
  have hnodup :
      (((PacketOrderer.new backlog).run ms).1.map DecodedMessage.serial).Nodup := by
    haveI : IsTrans ℕ (· < ·) := ⟨fun a b c => Nat.lt_trans⟩
    exact List.Pairwise.imp Nat.ne_of_lt (List.chain'_iff_pairwise.mp T3)
  refine ⟨List.nodup_iff_count_le_one.mp hnodup m.serial, ?_⟩
  obtain ⟨S1, S2, S3, S4, S5, S6, S7⟩ :=
    insert_step ((PacketOrderer.new backlog).run ms1).2.2 m
      (run_spec ms1 (PacketOrderer.new backlog) (ordInv_new backlog)).1
  obtain ⟨R1, R2, R3, R4, R5, R6, R7⟩ :=
    run_spec ms2 (((PacketOrderer.new backlog).run ms1).2.2.insert m).2.2 S1
  have hdec : (PacketOrderer.new backlog).run ms =
      (((PacketOrderer.new backlog).run ms1).1 ++
          ((((PacketOrderer.new backlog).run ms1).2.2.insert m).1 ++
            (((((PacketOrderer.new backlog).run ms1).2.2.insert m).2.2).run ms2).1),
        ((PacketOrderer.new backlog).run ms1).2.1 ++
          ((((PacketOrderer.new backlog).run ms1).2.2.insert m).2.1 ++
            (((((PacketOrderer.new backlog).run ms1).2.2.insert m).2.2).run ms2).2.1),
        (((((PacketOrderer.new backlog).run ms1).2.2.insert m).2.2).run ms2).2.2) := by
    rw [hms, run_append]
    simp only [PacketOrderer.run]
  have hm_mem :
      m.serial ∈ ((PacketOrderer.new backlog).run ms).1.map DecodedMessage.serial ∨
      m.serial ∈ ((PacketOrderer.new backlog).run ms).2.1 ∨
      m.serial ∈ ((PacketOrderer.new backlog).run ms).2.2.buffer.map Prod.fst := by
    rcases S6 he with h | h | h
    · refine Or.inl ?_
      rw [hdec]
      dsimp only
      simp only [List.map_append, List.mem_append]
      exact Or.inr (Or.inl h)
    · refine Or.inr (Or.inl ?_)
      rw [hdec]
      dsimp only
      simp only [List.mem_append]
      exact Or.inr (Or.inl h)
    · rcases R7 m.serial h with h2 | h2 | h2
      · refine Or.inl ?_
        rw [hdec]
        dsimp only
        simp only [List.map_append, List.mem_append]
        exact Or.inr (Or.inr h2)
      · refine Or.inr (Or.inl ?_)
        rw [hdec]
        dsimp only
        simp only [List.mem_append]
        exact Or.inr (Or.inr h2)
      · refine Or.inr (Or.inr ?_)
        rw [hdec]
        dsimp only
        exact h2
  rw [List.count_eq_zero]
  constructor
  · intro hnot
    rcases hm_mem with h | h | h
    · exact absurd h hnot
    · exact Or.inl h
    · exact Or.inr h
  · intro hor hcon
    rcases hor with h | h
    · exact T6 m.serial ⟨hcon, h⟩
    · obtain ⟨p, hp, hps⟩ := List.mem_map.mp h
      have h1 := (T1.2 p hp).2
      have h2 := (T4 m.serial hcon).2
      omega

theorem orderer_output_accounting_witness :
    (((PacketOrderer.new 3).run [⟨0, .AudioData, []⟩]).1.map
        DecodedMessage.serial).count 0 ≤ 1 :=
  ((orderer_output_accounting 3 [⟨0, .AudioData, []⟩]).2
    [] ⟨0, .AudioData, []⟩ [] rfl (by decide)).1

theorem chunk_count_spec_witness :
    (0 : ℕ) < 1 ∧ ∃ chunks accF,
      (ChunkAccumulator.new 1 0).runFeeds [] = some (chunks, accF) ∧
      (∀ ch ∈ chunks, ch.samples_f32.length = 1 * SAMPLE_RATE) ∧
      chunks.length =
        (if 1 * SAMPLE_RATE ≤ (([] : List (List ℚ)).map List.length).sum then
          ((([] : List (List ℚ)).map List.length).sum - 0 * SAMPLE_RATE) /
            (1 * SAMPLE_RATE - 0 * SAMPLE_RATE)
        else 0) :=
  ⟨by decide, chunk_count_spec 1 0 (by decide) []⟩

theorem chunk_overlap_spec_witness :
    (1 : ℕ) < 2 ∧ ∃ chunks accF,
      (ChunkAccumulator.mk [] 2 1).runFeeds [] = some (chunks, accF) ∧
      (∀ ch ∈ chunks, ch.samples_f32.length = 2) ∧
      ∀ i (hi : i + 1 < chunks.length),
        chunks[i].samples_f32.drop (chunks[i].samples_f32.length - 1) =
          chunks[i+1].samples_f32.take 1 :=
  ⟨by decide, chunk_overlap_spec 2 1 (by decide) []⟩

theorem feed_termination_iff_witness :
    emitLoop (1 * SAMPLE_RATE) (1 * SAMPLE_RATE) 1 (List.replicate 16000 (0 : ℚ)) =
      none :=
  (feed_termination_iff 1 1).2 rfl (List.replicate 16000 0)
    (by simp only [List.length_replicate, SAMPLE_RATE]; omega) 1

end Hoover
